import Mathlib

/-! Mamba image library, the line primitives of `MB_SupVector8.c` and the entry point of
`MB_Shift.c`.

A shallow embedding of the line primitives `SHIFT_LINE`, `SHIFT_EDGE_LINE`,
`SHIFT_LINE_LEFT`, `SHIFT_LINE_RIGHT` (scalar and `MB_VECTORIZATION_8` branches)
and of the entry points `MB_SupVector8` and `MB_Shift`.

Memory is a map from integer addresses to bytes; a `PLINE` is the address of
the first byte of a pixel line.  A C function that writes through its pointer
arguments becomes a function from memory to memory.  `Uint32`/`Sint32` values
are naturals/integers, with the conversions of the C code written out
(`toUint32`, `toSint32`, `% 4294967296`).
-/

namespace Mamba

/-! ## Data model -/

/-- A grey-scale pixel (`PIX8`, an unsigned byte). -/
abbrev PIX8 := Fin 256

/-- Byte-addressed memory. -/
abbrev Mem := Int → PIX8

/-- An assignment through a `PIX8` pointer: `*a = v`. -/
def store8 (m : Mem) (a : Int) (v : PIX8) : Mem :=
  fun x => if x = a then v else m x

/-- Conversion of an integer to `Uint32` (the cast `(Uint32) count`). -/
def toUint32 (z : Int) : Nat := (z % 4294967296).toNat

/-- Conversion of a `Uint32` to `Sint32` (the assignment of `bytes_in` to `count`). -/
def toSint32 (n : Nat) : Int :=
  if n % 4294967296 < 2147483648 then ((n % 4294967296 : Nat) : Int)
  else ((n % 4294967296 : Nat) : Int) - 4294967296

/-- Conversion of a `Uint32` to a byte (the store of a 32-bit value into a `PIX8`). -/
def toPIX8 (n : Nat) : PIX8 := ⟨n % 256, Nat.mod_lt _ (by decide)⟩

/-- The expression `(*pout)>(*pin) ? (*pout) : (*pin)` on two pixels. -/
def pixmax (o i : PIX8) : PIX8 := if i < o then o else i

/-- The expression `(*pout)>(fill_val) ? (*pout) : (fill_val)`, where `fill_val` is a
`Uint32`: the comparison is done on 32 bits, the result is stored into a byte. -/
def fillmax (o : PIX8) (fill_val : Nat) : PIX8 :=
  if fill_val < o.val then o else toPIX8 fill_val

/-! ## Scalar line primitives (the `#else` branches) -/

/-- The loop `for(i=0;i<k;i++,pout+=d,pin+=d) (*pout) = (*pout)>(*pin) ? (*pout) : (*pin);`
with `d = 1` (`pout++,pin++`) or `d = -1` (`pout--,pin--`); `k` is the number of
iterations. -/
def maxLoop (d : Int) : Nat → Mem → Int → Int → Mem
  | 0, m, _, _ => m
  | k + 1, m, pout, pin =>
      maxLoop d k (store8 m pout (pixmax (m pout) (m pin))) (pout + d) (pin + d)

/-- The loop `for(i=0;i<k;i++,pout+=d) (*pout) = (*pout)>(fill_val) ? (*pout) : (fill_val);`
with `d = 1` (`pout++`) or `d = -1` (`pout--`). -/
def fillLoop (d : Int) : Nat → Mem → Int → Nat → Mem
  | 0, m, _, _ => m
  | k + 1, m, pout, fill_val =>
      fillLoop d k (store8 m pout (fillmax (m pout) fill_val)) (pout + d) fill_val

/-- Scalar branch of `SHIFT_LINE(p_out, p_in, bytes_in)`; `p_out`, `p_in` are the line
addresses `*p_out`, `*p_in`. -/
def SHIFT_LINE (m : Mem) (p_out p_in : Int) (bytes_in : Nat) : Mem :=
  maxLoop 1 bytes_in m p_out p_in

/-- Scalar branch of `SHIFT_EDGE_LINE(p_out, bytes_in, fill_val)`. -/
def SHIFT_EDGE_LINE (m : Mem) (p_out : Int) (bytes_in : Nat) (fill_val : Nat) : Mem :=
  fillLoop 1 bytes_in m p_out fill_val

/-- Scalar branch of `SHIFT_LINE_LEFT(p_out, p_in, bytes_in, count, fill_val)`.
`count` is a `Sint32`, `bytes_in` and `fill_val` are `Uint32`. -/
def SHIFT_LINE_LEFT (m : Mem) (p_out p_in : Int) (bytes_in : Nat) (count : Int)
    (fill_val : Nat) : Mem :=
  -- count = ((Uint32) count)<bytes_in ? count : bytes_in;
  let count : Int := if toUint32 count < bytes_in then count else toSint32 bytes_in
  -- pin = (PLINE) (*p_in + count); pout = (PLINE) (*p_out);
  let pin := p_in + count
  let pout := p_out
  -- for(i=0; i<(bytes_in-((Uint32) count)); i++,pout++,pin++)
  let k := (bytes_in + 4294967296 - toUint32 count) % 4294967296
  let m1 := maxLoop 1 k m pout pin
  -- for(i=0; i<((Uint32) count); i++,pout++)
  fillLoop 1 (toUint32 count) m1 (pout + k) fill_val

/-- Scalar branch of `SHIFT_LINE_RIGHT(p_out, p_in, bytes_in, count, fill_val)`. -/
def SHIFT_LINE_RIGHT (m : Mem) (p_out p_in : Int) (bytes_in : Nat) (count : Int)
    (fill_val : Nat) : Mem :=
  -- count = ((Uint32) count)<bytes_in ? count : bytes_in;
  let count : Int := if toUint32 count < bytes_in then count else toSint32 bytes_in
  -- pin = (PLINE) (*p_in + bytes_in -1 - count); pout = (PLINE) (*p_out + bytes_in -1);
  let pin := p_in + bytes_in - 1 - count
  let pout := p_out + bytes_in - 1
  -- for(i=0;i<bytes_in-((Uint32) count);i++,pin--,pout--)
  let k := (bytes_in + 4294967296 - toUint32 count) % 4294967296
  let m1 := maxLoop (-1) k m pout pin
  -- for(i=0; i<((Uint32) count); i++,pout--)
  fillLoop (-1) (toUint32 count) m1 (pout - k) fill_val

/-! ## Vectorized line shifts (the `#ifdef MB_VECTORIZATION_8` branches)

The register type and the register operations come from `mambaApi_vector.h`, which is
not among the sources; they are read as the 16-byte operations the code is written for:
unsigned byte maximum, whole-register byte shifts, bitwise or. -/

/-- Modelled from the spec: the register type `MB_Vector8`, 16 bytes; byte `j` of a
register loaded from the address `p` is the byte at `p + j`.  Only the bytes `0..15` of
the map are meaningful. -/
abbrev MB_Vector8 := Nat → PIX8

/-- Modelled from the spec: `MB_vec8_load`, the 16 bytes at the address `p`. -/
def MB_vec8_load (m : Mem) (p : Int) : MB_Vector8 := fun j => m (p + j)

/-- Modelled from the spec: `MB_vec8_store`, the 16 bytes of the register written at the
address `p`. -/
def MB_vec8_store (m : Mem) (p : Int) (v : MB_Vector8) : Mem :=
  fun x => if p ≤ x ∧ x < p + 16 then v (x - p).toNat else m x

/-- Modelled from the spec: `MB_vec8_max`, the unsigned maximum byte by byte. -/
def MB_vec8_max (a b : MB_Vector8) : MB_Vector8 := fun j => pixmax (a j) (b j)

/-- Modelled from the spec: `MB_vec8_or`, the bitwise or. -/
def MB_vec8_or (a b : MB_Vector8) : MB_Vector8 := fun j => a j ||| b j

/-- Modelled from the spec: `MB_vec8_shrgt`, the whole-register shift by `k` bytes towards
the low addresses: byte `j` receives byte `j + k`, zeros enter at the top. -/
def MB_vec8_shrgt (v : MB_Vector8) (k : Nat) : MB_Vector8 :=
  fun j => if j + k < 16 then v (j + k) else 0

/-- Modelled from the spec: `MB_vec8_shlft`, the whole-register shift by `k` bytes towards
the high addresses: byte `j` receives byte `j - k`, zeros enter at the bottom. -/
def MB_vec8_shlft (v : MB_Vector8) (k : Nat) : MB_Vector8 :=
  fun j => if k ≤ j then v (j - k) else 0

/-- Modelled from the spec: `MB_vec8_set32`, the 32-bit value repeated four times in the
register (byte `j` is the byte `j mod 4` of the value, low byte first). -/
def MB_vec8_set32 (fill_val : Nat) : MB_Vector8 :=
  fun j => toPIX8 (fill_val / 256 ^ (j % 4))

/-- The number of iterations of a loop `for(i=0;i<L;i+=sizeof(MB_Vector8))` (the counter
`i` does not wrap around as long as `L <= 2^32 - 16`). -/
def vecIter (L : Nat) : Nat := (L + 15) / 16

/-- The loop without intra register shifting, `k` iterations of
`reg1 = load(pin); reg2 = load(pout); reg2 = max(reg2, reg1); store(pout, reg2);`
with `pin++,pout++` (`d = 16` bytes) or `pin--,pout--` (`d = -16`). -/
def vecMaxLoop (d : Int) : Nat → Mem → Int → Int → Mem
  | 0, m, _, _ => m
  | k + 1, m, pout, pin =>
      let reg1 := MB_vec8_load m pin
      let reg2 := MB_vec8_load m pout
      let reg2 := MB_vec8_max reg2 reg1
      vecMaxLoop d k (MB_vec8_store m pout reg2) (pout + d) (pin + d)

/-- The loop that fills the created space, `k` iterations of
`reg2 = load(pout); reg2 = max(reg2, edge); store(pout, reg2);` with `pout++` (`d = 16`)
or `pout--` (`d = -16`). -/
def vecFillLoop (d : Int) (edge : MB_Vector8) : Nat → Mem → Int → Mem
  | 0, m, _ => m
  | k + 1, m, pout =>
      let reg2 := MB_vec8_load m pout
      let reg2 := MB_vec8_max reg2 edge
      vecFillLoop d edge k (MB_vec8_store m pout reg2) (pout + d)

/-- The register `reg1` after the `switch` and the `or` of the left shift: the source
register shifted by `ins_reg_dec` bytes, completed with the low bytes of the next
register (or of `edge` in the iteration `i = last`). -/
def intraRegLeft (ins_reg_dec : Nat) (edge : MB_Vector8) (last i : Nat) (m : Mem) (pin : Int) :
    MB_Vector8 :=
  let reg1 := MB_vec8_load m pin
  -- reg2 = (i==(bytes_in-(reg_dec+1)*MB_vec8_size)) ? edge : MB_vec8_load(pin+1);
  let reg2 := if i = last then edge else MB_vec8_load m (pin + 16)
  -- switch(ins_reg_dec) { CASE_INTRA_SHIFT(1) ... CASE_INTRA_SHIFT(15) default: case 0: break; }
  let reg1' := if 1 ≤ ins_reg_dec ∧ ins_reg_dec ≤ 15 then MB_vec8_shrgt reg1 ins_reg_dec else reg1
  let reg2' :=
    if 1 ≤ ins_reg_dec ∧ ins_reg_dec ≤ 15 then MB_vec8_shlft reg2 (16 - ins_reg_dec) else reg2
  MB_vec8_or reg1' reg2'

/-- The loop with intra register shifting of the left shift; `i` is the `Uint32` loop
counter and `k` the number of iterations left. -/
def intraLoopLeft (ins_reg_dec : Nat) (edge : MB_Vector8) (last : Nat) :
    Nat → Nat → Mem → Int → Int → Mem
  | 0, _, m, _, _ => m
  | k + 1, i, m, pout, pin =>
      let reg1 := intraRegLeft ins_reg_dec edge last i m pin
      let reg2 := MB_vec8_load m pout
      let reg2 := MB_vec8_max reg2 reg1
      intraLoopLeft ins_reg_dec edge last k ((i + 16) % 4294967296)
        (MB_vec8_store m pout reg2) (pout + 16) (pin + 16)

/-- The register `reg1` after the `switch` and the `or` of the right shift: the source
register shifted by `ins_reg_dec` bytes, completed with the high bytes of the previous
register (or of `edge` in the iteration `i = last`). -/
def intraRegRight (ins_reg_dec : Nat) (edge : MB_Vector8) (last i : Nat) (m : Mem) (pin : Int) :
    MB_Vector8 :=
  let reg1 := MB_vec8_load m pin
  -- reg2 = (i==(bytes_in-(reg_dec+1)*MB_vec8_size)) ? edge : MB_vec8_load(pin-1);
  let reg2 := if i = last then edge else MB_vec8_load m (pin - 16)
  let reg1' := if 1 ≤ ins_reg_dec ∧ ins_reg_dec ≤ 15 then MB_vec8_shlft reg1 ins_reg_dec else reg1
  let reg2' :=
    if 1 ≤ ins_reg_dec ∧ ins_reg_dec ≤ 15 then MB_vec8_shrgt reg2 (16 - ins_reg_dec) else reg2
  MB_vec8_or reg1' reg2'

/-- The loop with intra register shifting of the right shift. -/
def intraLoopRight (ins_reg_dec : Nat) (edge : MB_Vector8) (last : Nat) :
    Nat → Nat → Mem → Int → Int → Mem
  | 0, _, m, _, _ => m
  | k + 1, i, m, pout, pin =>
      let reg1 := intraRegRight ins_reg_dec edge last i m pin
      let reg2 := MB_vec8_load m pout
      let reg2 := MB_vec8_max reg2 reg1
      intraLoopRight ins_reg_dec edge last k ((i + 16) % 4294967296)
        (MB_vec8_store m pout reg2) (pout - 16) (pin - 16)

/-- Vectorized branch of `SHIFT_LINE_LEFT(p_out, p_in, bytes_in, count, fill_val)`.
`MB_vec8_size` is read as the `int` constant 16 and `sizeof(MB_Vector8)` as the `size_t`
value 16 (64-bit `size_t`). -/
def SHIFT_LINE_LEFT_vec (m : Mem) (p_out p_in : Int) (bytes_in : Nat) (count : Int)
    (fill_val : Nat) : Mem :=
  -- reg_dec = ((Uint32) count)<bytes_in ? count/MB_vec8_size : bytes_in/MB_vec8_size;
  let reg_dec : Nat :=
    if toUint32 count < bytes_in then toUint32 (Int.tdiv count 16) else bytes_in / 16
  -- ins_reg_dec = count % MB_vec8_size;
  let ins_reg_dec : Nat := toUint32 (Int.tmod count 16)
  let edge := MB_vec8_set32 fill_val
  -- pin = (MB_Vector8 *) (*p_in + reg_dec*sizeof(MB_Vector8)); pout = (MB_Vector8 *) (*p_out);
  let pin := p_in + (reg_dec : Int) * 16
  let pout := p_out
  -- the bound bytes_in-reg_dec*sizeof(MB_Vector8) of the two loops, a size_t
  let L : Nat := (((bytes_in : Int) - (reg_dec : Int) * 16) % 18446744073709551616).toNat
  -- the value bytes_in-(reg_dec+1)*MB_vec8_size compared with i, a Uint32
  let last : Nat := toUint32 ((bytes_in : Int) - ((reg_dec : Int) + 1) * 16)
  let m1 :=
    if ins_reg_dec = 0 then vecMaxLoop 16 (vecIter L) m pout pin
    else intraLoopLeft ins_reg_dec edge last (vecIter L) 0 m pout pin
  -- for(i=0;i<reg_dec;i++,pout++)
  vecFillLoop 16 edge reg_dec m1 (pout + 16 * (vecIter L : Int))

/-- Vectorized branch of `SHIFT_LINE_RIGHT(p_out, p_in, bytes_in, count, fill_val)`. -/
def SHIFT_LINE_RIGHT_vec (m : Mem) (p_out p_in : Int) (bytes_in : Nat) (count : Int)
    (fill_val : Nat) : Mem :=
  let reg_dec : Nat :=
    if toUint32 count < bytes_in then toUint32 (Int.tdiv count 16) else bytes_in / 16
  let ins_reg_dec : Nat := toUint32 (Int.tmod count 16)
  let edge := MB_vec8_set32 fill_val
  -- pin = (MB_Vector8 *) (*p_in + bytes_in - (reg_dec+1)*sizeof(MB_Vector8));
  let pin := p_in + (bytes_in : Int) - ((reg_dec : Int) + 1) * 16
  -- pout = (MB_Vector8 *) (*p_out + bytes_in - sizeof(MB_Vector8));
  let pout := p_out + (bytes_in : Int) - 16
  let L : Nat := (((bytes_in : Int) - (reg_dec : Int) * 16) % 18446744073709551616).toNat
  let last : Nat := toUint32 ((bytes_in : Int) - ((reg_dec : Int) + 1) * 16)
  let m1 :=
    if ins_reg_dec = 0 then vecMaxLoop (-16) (vecIter L) m pout pin
    else intraLoopRight ins_reg_dec edge last (vecIter L) 0 m pout pin
  -- for(i=0;i<reg_dec;i++,pout--)
  vecFillLoop (-16) edge reg_dec m1 (pout - 16 * (vecIter L : Int))

/-- The error codes of the library that this part produces. -/
inductive MB_errcode where
  | NO_ERR
  | ERR_BAD_SIZE
  | ERR_BAD_DEPTH
  | ERR_BAD_DIRECTION
  deriving DecidableEq, Repr

/-- The edge mode (`enum MB_edgemode_t`). -/
inductive MB_edgemode_t where
  | MB_EMPTY_EDGE
  | MB_FILLED_EDGE
  deriving DecidableEq, Repr

/-- An image (`MB_Image`): its dimensions, its depth in bits per pixel and the table
`plines` of the addresses of its pixel lines (line `y` starts at `plines y`). -/
structure MB_Image where
  width : Nat
  height : Nat
  depth : Nat
  plines : Nat → Int

/-- Modelled from the spec: the macro `MB_CHECK_SIZE_2` of `mambaApi_loc.h`, which is not
among the sources; the dimensions of the two images must match (width and height). -/
def MB_CHECK_SIZE_2 (im1 im2 : MB_Image) : Bool :=
  im1.width == im2.width && im1.height == im2.height

/-- Modelled from the spec: the macro `MB_PROBE_PAIR` of `mambaApi_loc.h`, which is not
among the sources; the combination of the depths of the two images. -/
def MB_PROBE_PAIR (im_in im_out : MB_Image) : Nat × Nat := (im_in.depth, im_out.depth)

/-- Modelled from the spec: the constant `MB_PAIR_8_8`, the combination of two 8-bit
images. -/
def MB_PAIR_8_8 : Nat × Nat := (8, 8)

/-- Modelled from the spec: the macro `MB_LINE_COUNT` of `mambaApi_loc.h`, the number of
bytes of a line, `ceil(width * depth / 8)` (no further alignment). -/
def MB_LINE_COUNT (im : MB_Image) : Nat := (im.width * im.depth + 7) / 8

/-- Modelled from the spec: the macro `GREY_FILL_VALUE`, the fill value an edge mode
resolves to for 8-bit images (0 or 255). -/
def GREY_FILL_VALUE (edge : MB_edgemode_t) : Nat :=
  match edge with
  | .MB_EMPTY_EDGE => 0
  | .MB_FILLED_EDGE => 255

/-- The type `VECFUNC` of the orientation drivers, called as
`fn(plines_out, plines_in, bytes_in, nb_lines, dx, dy, edge)`. -/
abbrev VECFUNC := Mem → (Nat → Int) → (Nat → Int) → Nat → Int → Int → Int → Nat → Mem

/-- Modelled from the spec: the row loop shared by the drivers of `MB_ShftVector.h`, which
is not among the sources.  Rows `y, y+1, ...` (`k` of them) of the destination are
processed in turn: row `y` is merged with the source row `y + dy` by the line primitive
`hline` when that row exists, and saturated with the fill value by `SHIFT_EDGE_LINE` when
the source row lies outside the image. -/
def vecRows (hline : Mem → Int → Int → Mem) (p_out p_in : Nat → Int) (bytes_in : Nat)
    (nb_lines dy : Int) (edge : Nat) : Nat → Nat → Mem → Mem
  | 0, _, m => m
  | k + 1, y, m =>
      let m1 :=
        if 0 ≤ (y : Int) + dy ∧ (y : Int) + dy < nb_lines then
          hline m (p_out y) (p_in ((y : Int) + dy).toNat)
        else SHIFT_EDGE_LINE m (p_out y) bytes_in edge
      vecRows hline p_out p_in bytes_in nb_lines dy edge k (y + 1) m1

/-- Modelled from the spec: driver of the zero vector, `max_merge_line` per row, no
shift. -/
def VEC_0_0 : VECFUNC := fun m p_out p_in bytes_in nb_lines _ _ edge =>
  vecRows (fun m po pi => SHIFT_LINE m po pi bytes_in) p_out p_in bytes_in nb_lines 0 edge
    nb_lines.toNat 0 m

/-- Modelled from the spec: driver of a pure horizontal vector with `dx < 0`, per-row
`shift_right_line` by `-dx`, no row reindexing. -/
def VEC_XNEG_0 : VECFUNC := fun m p_out p_in bytes_in nb_lines dx _ edge =>
  vecRows (fun m po pi => SHIFT_LINE_RIGHT m po pi bytes_in (-dx) edge) p_out p_in bytes_in
    nb_lines 0 edge nb_lines.toNat 0 m

/-- Modelled from the spec: driver of a pure horizontal vector with `dx > 0`, per-row
`shift_left_line` by `dx`, no row reindexing. -/
def VEC_XPOS_0 : VECFUNC := fun m p_out p_in bytes_in nb_lines dx _ edge =>
  vecRows (fun m po pi => SHIFT_LINE_LEFT m po pi bytes_in dx edge) p_out p_in bytes_in
    nb_lines 0 edge nb_lines.toNat 0 m

/-- Modelled from the spec: driver of a pure vertical vector (`dy < 0` or `dy > 0`), row
reindexing only: `max_merge_line` between row `y` and row `y + dy`, the vacated rows being
saturated with `fill_max_line`. -/
def VEC_0_Y : VECFUNC := fun m p_out p_in bytes_in nb_lines _ dy edge =>
  vecRows (fun m po pi => SHIFT_LINE m po pi bytes_in) p_out p_in bytes_in nb_lines dy edge
    nb_lines.toNat 0 m

/-- Modelled from the spec: driver of a diagonal vector with `dx < 0`: row reindexing by
`dy` combined with a per-row `shift_right_line` by `-dx`. -/
def VEC_XNEG_Y : VECFUNC := fun m p_out p_in bytes_in nb_lines dx dy edge =>
  vecRows (fun m po pi => SHIFT_LINE_RIGHT m po pi bytes_in (-dx) edge) p_out p_in bytes_in
    nb_lines dy edge nb_lines.toNat 0 m

/-- Modelled from the spec: driver of a diagonal vector with `dx > 0`: row reindexing by
`dy` combined with a per-row `shift_left_line` by `dx`. -/
def VEC_XPOS_Y : VECFUNC := fun m p_out p_in bytes_in nb_lines dx dy edge =>
  vecRows (fun m po pi => SHIFT_LINE_LEFT m po pi bytes_in dx edge) p_out p_in bytes_in
    nb_lines dy edge nb_lines.toNat 0 m

/-- Modelled from the spec: the sign class of one component of the vector (0: no motion,
1: negative, 2: positive). -/
def signCode (z : Int) : Nat := if z < 0 then 1 else if 0 < z then 2 else 0

/-- Modelled from the spec: the macro `CODE_ORIENTATION` of `MB_ShftVector.h`, the
orientation category of a vector, given by the signs of its two components. -/
def CODE_ORIENTATION (dx dy : Int) : Nat := signCode dx + 3 * signCode dy

/-- Modelled from the spec: the table `orientationFunc` of `MB_ShftVector.h`, one driver
per orientation category (zero vector, two pure horizontal, two pure vertical and four
diagonal categories). -/
def orientationFunc : List VECFUNC :=
  [VEC_0_0, VEC_XNEG_0, VEC_XPOS_0,
   VEC_0_Y, VEC_XNEG_Y, VEC_XPOS_Y,
   VEC_0_Y, VEC_XNEG_Y, VEC_XPOS_Y]

/-- The entry point `MB_SupVector8(src, srcdest, dx, dy, edge)`: the error code and the
memory after the call; `none` stands for a lookup outside the table `orientationFunc`. -/
def MB_SupVector8 (m : Mem) (src srcdest : MB_Image) (dx dy : Int) (edge : MB_edgemode_t) :
    Option (MB_errcode × Mem) :=
  -- if (!MB_CHECK_SIZE_2(src, srcdest)) return ERR_BAD_SIZE;
  if ¬ MB_CHECK_SIZE_2 src srcdest then some (.ERR_BAD_SIZE, m)
  -- switch (MB_PROBE_PAIR(src, srcdest)) { case MB_PAIR_8_8: break; default: return ERR_BAD_DEPTH; }
  else if MB_PROBE_PAIR src srcdest ≠ MB_PAIR_8_8 then some (.ERR_BAD_DEPTH, m)
  else
    let plines_in := src.plines
    let plines_out := srcdest.plines
    let bytes_in := MB_LINE_COUNT src
    -- fn = orientationFunc[CODE_ORIENTATION(dx,dy)];
    match orientationFunc[CODE_ORIENTATION dx dy]? with
    | none => none
    | some fn =>
      -- fn(plines_out, plines_in, bytes_in, (Sint32) src->height, dx, dy, GREY_FILL_VALUE(edge));
      some (.NO_ERR, fn m plines_out plines_in bytes_in (toSint32 src.height) dx dy
        (GREY_FILL_VALUE edge))

/-! ## The entry point `MB_Shift` of `MB_Shift.c` -/

/-- Modelled from the spec: the grid kinds of `enum MB_grid_t` (square and hexagonal); the
declaration of the type is in `mambaApi_loc.h`, which is not among the sources. -/
inductive MB_grid_t where
  | MB_HEXAGONAL_GRID
  | MB_SQUARE_GRID
  deriving DecidableEq, Repr

/-- The type of the depth-specific implementations `MB_Shiftb`, `MB_Shift8` and
`MB_Shift32`, declared `extern` in `MB_Shift.c` and called as
`f(src, dest, dirnum, count, long_filler_pix, grid)`: the error code and the memory
after the call. -/
abbrev SHIFTFUNC := Mem → MB_Image → MB_Image → Nat → Nat → Nat → MB_grid_t → MB_errcode × Mem

/-- The entry point `MB_Shift(src, dest, dirnum, count, long_filler_pix, grid)`.  The three
`extern` implementations, whose code is not among the sources, are parameters. -/
def MB_Shift (MB_Shiftb MB_Shift8 MB_Shift32 : SHIFTFUNC) (m : Mem) (src dest : MB_Image)
    (dirnum count long_filler_pix : Nat) (grid : MB_grid_t) : MB_errcode × Mem :=
  -- switch(src->depth) {
  if src.depth = 1 then
    -- case 1: return MB_Shiftb(src, dest, dirnum, count, long_filler_pix, grid);
    MB_Shiftb m src dest dirnum count long_filler_pix grid
  else if src.depth = 8 then
    -- case 8: return MB_Shift8(src, dest, dirnum, count, long_filler_pix, grid);
    MB_Shift8 m src dest dirnum count long_filler_pix grid
  else if src.depth = 32 then
    -- case 32: return MB_Shift32(src, dest, dirnum, count, long_filler_pix, grid);
    MB_Shift32 m src dest dirnum count long_filler_pix grid
  else
    -- default: break; } return ERR_BAD_DEPTH;
    (.ERR_BAD_DEPTH, m)

/-- Modelled from the spec: the precondition of the depth-specific implementations
`MB_Shiftb`, `MB_Shift8`, `MB_Shift32` (their code is not among the sources) on the
dimensions: when the widths or the heights of `src` and `dest` differ the implementation
fails with `ERR_BAD_SIZE` and leaves the memory as it is. -/
def ChecksSize (impl : SHIFTFUNC) : Prop :=
  ∀ (m : Mem) (src dest : MB_Image) (dirnum count long_filler_pix : Nat) (grid : MB_grid_t),
    (src.width ≠ dest.width ∨ src.height ≠ dest.height) →
      impl m src dest dirnum count long_filler_pix grid = (.ERR_BAD_SIZE, m)

/-! ## Notions used in the statements -/

/-- Byte reversal of the line of `n` bytes at address `p` (byte `i` and byte `n-1-i`
exchanged); the rest of the memory is kept. -/
def reverseLine (m : Mem) (p : Int) (n : Nat) : Mem :=
  fun x => if p ≤ x ∧ x < p + n then m (p + (p + n - 1 - x)) else m x

/-- The lines of `n` bytes of the destination image (`po`) are pairwise disjoint and
disjoint from the lines of the source image (`pi`); `h` is the number of lines. -/
def LinesApart (po pi : Nat → Int) (h n : Nat) : Prop :=
  (∀ y, y < h → ∀ y', y' < h → y ≠ y' → po y + n ≤ po y' ∨ po y' + n ≤ po y) ∧
  (∀ y, y < h → ∀ y', y' < h → po y + n ≤ pi y' ∨ pi y' + n ≤ po y)

/-- The value the neighbour maximum gives to the pixel `(x, y)` of the destination, for a
`w` by `h` image: the maximum of the pixel and of the source pixel at `(x + dx, y + dy)`
when this position is inside the image, the maximum of the pixel and of the fill byte `e`
otherwise. -/
def supPixel (m : Mem) (po pi : Nat → Int) (w h : Nat) (dx dy : Int) (e : PIX8)
    (x y : Nat) : PIX8 :=
  if 0 ≤ (y : Int) + dy ∧ (y : Int) + dy < h ∧ 0 ≤ (x : Int) + dx ∧ (x : Int) + dx < w then
    max (m (po y + x)) (m (pi ((y : Int) + dy).toNat + ((x : Int) + dx)))
  else max (m (po y + x)) e

/-- A line primitive `hline` realises the horizontal displacement `dx` on lines of `n`
bytes: on two disjoint lines, byte `x` of the destination becomes the maximum of itself
and of the source byte `x + dx` when that byte is in the line, the maximum of itself and
of the fill byte `e` otherwise; nothing else is written. -/
def HLineSpec (hline : Mem → Int → Int → Mem) (n : Nat) (dx : Int) (e : PIX8) : Prop :=
  ∀ (m : Mem) (po pi : Int), (po + n ≤ pi ∨ pi + n ≤ po) →
    (∀ x : Nat, x < n →
      hline m po pi (po + x)
        = if 0 ≤ (x : Int) + dx ∧ (x : Int) + dx < n then max (m (po + x)) (m (pi + ((x : Int) + dx)))
          else max (m (po + x)) e) ∧
    (∀ z : Int, z < po ∨ po + n ≤ z → hline m po pi z = m z)

/-! ## Concrete inputs -/

/-- A concrete memory: the line `[1,5,3,7]` at address 0 and the line `[4,2,9,0]` at
address 100; every other byte is 0. -/
def mem0 : Mem := fun x =>
  if x = 0 then 1 else if x = 1 then 5 else if x = 2 then 3 else if x = 3 then 7
  else if x = 100 then 4 else if x = 101 then 2 else if x = 102 then 9 else 0

/-- A concrete memory with a 32-byte line at address 0 (byte `x` is `7 * x mod 50`) and a
32-byte line at address 100 (byte `100 + x` is `13 * x mod 200`); every other byte is 9. -/
def mem32 : Mem := fun x =>
  if 0 ≤ x ∧ x < 32 then toPIX8 (7 * x.toNat % 50)
  else if 100 ≤ x ∧ x < 132 then toPIX8 (13 * (x - 100).toNat % 200)
  else 9

/-- A concrete 4 by 2 destination image of depth 8, with its lines at the addresses 0
and 4. -/
def imgDst : MB_Image := { width := 4, height := 2, depth := 8, plines := fun y => 4 * (y : Int) }

/-- A concrete 4 by 2 source image of depth 8, with its lines at the addresses 100 and
104. -/
def imgSrc : MB_Image :=
  { width := 4, height := 2, depth := 8, plines := fun y => 100 + 4 * (y : Int) }

/-- A concrete 1-bit image of 4 by 2 pixels. -/
def imgBin : MB_Image := { width := 4, height := 2, depth := 1, plines := fun y => 200 + (y : Int) }

/-- A concrete 32-bit image of 4 by 2 pixels. -/
def img32 : MB_Image :=
  { width := 4, height := 2, depth := 32, plines := fun y => 300 + 16 * (y : Int) }

/-- A concrete 8-bit image of 8 by 2 pixels. -/
def imgWide : MB_Image :=
  { width := 8, height := 2, depth := 8, plines := fun y => 400 + 8 * (y : Int) }

/-- A concrete image of depth 16, a depth the library does not support, of 8 by 2
pixels. -/
def img16 : MB_Image :=
  { width := 8, height := 2, depth := 16, plines := fun y => 500 + 16 * (y : Int) }

/-- A concrete depth-specific implementation, used as an instance of the parameters of
`MB_Shift`: it makes the precondition checks of the spec (the dimensions, then the depth
`d` of both images) and writes nothing. -/
def shiftChecksOnly (d : Nat) : SHIFTFUNC := fun m src dest _ _ _ _ =>
  if ¬ MB_CHECK_SIZE_2 src dest then (.ERR_BAD_SIZE, m)
  else if MB_PROBE_PAIR src dest ≠ (d, d) then (.ERR_BAD_DEPTH, m)
  else (.NO_ERR, m)

/-- A concrete depth-specific implementation that always reports a bad direction. -/
def shiftBadDirection : SHIFTFUNC := fun m _ _ _ _ _ _ => (.ERR_BAD_DIRECTION, m)

/-! ## Basic facts on the memory and on the loops -/

theorem store8_same (m : Mem) (a : Int) (v : PIX8) : store8 m a v a = v := by
  simp [store8]

theorem store8_other (m : Mem) (a x : Int) (v : PIX8) (h : x ≠ a) : store8 m a v x = m x := by
  simp [store8, h]

theorem pixmax_eq_max (o i : PIX8) : pixmax o i = max o i := by
  unfold pixmax
  rcases lt_or_le i o with h | h
  · rw [if_pos h, max_eq_left h.le]
  · rw [if_neg (not_lt.mpr h), max_eq_right h]

theorem fillmax_val (o : PIX8) (f : Nat) :
    (fillmax o f).val = if f < o.val then o.val else f % 256 := by
  unfold fillmax toPIX8
  split <;> rfl

theorem fillmax_val_byte (o : PIX8) (f : Nat) (hf : f ≤ 255) :
    (fillmax o f).val = max o.val f := by
  rw [fillmax_val]
  have := o.isLt
  split
  · omega
  · rw [Nat.mod_eq_of_lt (by omega)]; omega

/-- Addresses that the merge loop does not visit keep their content. -/
theorem maxLoop_frame (d : Int) (k : Nat) (m : Mem) (pout pin x : Int)
    (h : ∀ j : Nat, j < k → x ≠ pout + d * j) :
    maxLoop d k m pout pin x = m x := by
  induction k generalizing m pout pin with
  | zero => rfl
  | succ k ih =>
    simp only [maxLoop]
    rw [ih]
    · apply store8_other
      have := h 0 (Nat.succ_pos k)
      simpa using this
    · intro j hj
      have := h (j + 1) (Nat.succ_lt_succ hj)
      intro hx
      apply this
      rw [hx]; push_cast; ring

/-- Addresses that the fill loop does not visit keep their content. -/
theorem fillLoop_frame (d : Int) (k : Nat) (m : Mem) (pout x : Int) (f : Nat)
    (h : ∀ j : Nat, j < k → x ≠ pout + d * j) :
    fillLoop d k m pout f x = m x := by
  induction k generalizing m pout with
  | zero => rfl
  | succ k ih =>
    simp only [fillLoop]
    rw [ih]
    · apply store8_other
      have := h 0 (Nat.succ_pos k)
      simpa using this
    · intro j hj
      have := h (j + 1) (Nat.succ_lt_succ hj)
      intro hx
      apply this
      rw [hx]; push_cast; ring

/-- The `j`-th iteration of the merge loop stores the maximum of the two bytes it
reads, provided no byte is read after it has been written. -/
theorem maxLoop_at (d : Int) (hd : d = 1 ∨ d = -1) (k : Nat) (m : Mem) (pout pin : Int)
    (hread : ∀ j j' : Nat, j' < j → j < k → pin + d * j ≠ pout + d * j')
    (j : Nat) (hj : j < k) :
    maxLoop d k m pout pin (pout + d * j) = pixmax (m (pout + d * j)) (m (pin + d * j)) := by
  induction k generalizing m pout pin j with
  | zero => omega
  | succ k ih =>
    simp only [maxLoop]
    cases j with
    | zero =>
      rw [maxLoop_frame]
      · simp [store8_same]
      · intro j' _
        rcases hd with rfl | rfl <;> push_cast <;> omega
    | succ j =>
      have e1 : pout + d * ((j + 1 : Nat) : Int) = (pout + d) + d * j := by push_cast; ring
      have e2 : pin + d * ((j + 1 : Nat) : Int) = (pin + d) + d * j := by push_cast; ring
      rw [e1, e2, ih _ _ _ _ j (by omega)]
      · rw [store8_other, store8_other]
        · have := hread (j + 1) 0 (by omega) (by omega)
          rw [e2] at this
          simpa using this
        · rcases hd with rfl | rfl <;> omega
      · intro a b hab ha
        have := hread (a + 1) (b + 1) (by omega) (by omega)
        intro hx
        apply this
        push_cast
        linear_combination hx

/-- The `j`-th iteration of the fill loop stores the fill expression of the byte. -/
theorem fillLoop_at (d : Int) (hd : d = 1 ∨ d = -1) (k : Nat) (m : Mem) (pout : Int) (f : Nat)
    (j : Nat) (hj : j < k) :
    fillLoop d k m pout f (pout + d * j) = fillmax (m (pout + d * j)) f := by
  induction k generalizing m pout j with
  | zero => omega
  | succ k ih =>
    simp only [fillLoop]
    cases j with
    | zero =>
      rw [fillLoop_frame]
      · simp [store8_same]
      · intro j' _
        rcases hd with rfl | rfl <;> push_cast <;> omega
    | succ j =>
      have e1 : pout + d * ((j + 1 : Nat) : Int) = (pout + d) + d * j := by push_cast; ring
      rw [e1, ih _ _ j (by omega), store8_other]
      rcases hd with rfl | rfl <;> omega

/-! ## The scalar shifts, unfolded for a non-negative amount -/

theorem toUint32_natCast (a : Nat) (ha : a < 4294967296) : toUint32 (a : Int) = a := by
  unfold toUint32
  omega

theorem toSint32_small (n : Nat) (hn : n < 2147483648) : toSint32 n = (n : Int) := by
  unfold toSint32
  rw [Nat.mod_eq_of_lt (by omega), if_pos hn]

/-- The clamp `count = ((Uint32) count)<bytes_in ? count : bytes_in` on a non-negative
`Sint32` amount is the minimum of the amount and the byte count. -/
theorem clamp_count (n a : Nat) (ha : a < 4294967296) (han : n ≤ a → n < 2147483648) :
    (if toUint32 (a : Int) < n then (a : Int) else toSint32 n) = ((min a n : Nat) : Int) := by
  rw [toUint32_natCast a ha]
  split
  · rw [min_eq_left (by omega)]
  · rw [toSint32_small n (by omega), min_eq_right (by omega)]

theorem SHIFT_LINE_LEFT_eq (m : Mem) (po pi : Int) (n a f : Nat)
    (hn : n < 4294967296) (ha : a < 4294967296) (han : n ≤ a → n < 2147483648) :
    SHIFT_LINE_LEFT m po pi n (a : Int) f =
      fillLoop 1 (min a n) (maxLoop 1 (n - min a n) m po (pi + (min a n : Nat)))
        (po + (n - min a n : Nat)) f := by
  have hc : min a n ≤ n := min_le_right a n
  have hk : (n + 4294967296 - min a n) % 4294967296 = n - min a n := by omega
  simp only [SHIFT_LINE_LEFT, clamp_count n a ha han, toUint32_natCast (min a n) (by omega), hk]

theorem SHIFT_LINE_RIGHT_eq (m : Mem) (po pi : Int) (n a f : Nat)
    (hn : n < 4294967296) (ha : a < 4294967296) (han : n ≤ a → n < 2147483648) :
    SHIFT_LINE_RIGHT m po pi n (a : Int) f =
      fillLoop (-1) (min a n)
        (maxLoop (-1) (n - min a n) m (po + n - 1) (pi + n - 1 - (min a n : Nat)))
        (po + n - 1 - (n - min a n : Nat)) f := by
  have hc : min a n ≤ n := min_le_right a n
  have hk : (n + 4294967296 - min a n) % 4294967296 = n - min a n := by omega
  simp only [SHIFT_LINE_RIGHT, clamp_count n a ha han, toUint32_natCast (min a n) (by omega), hk]

/-- Left shift, merged part: byte `i < n - c` receives the maximum of itself and of the
source byte `i + c`, as long as the source bytes are read before being overwritten. -/
theorem scalar_left_merge (m : Mem) (po pi : Int) (n a f : Nat)
    (hn : n < 4294967296) (ha : a < 4294967296) (han : n ≤ a → n < 2147483648)
    (hread : ∀ j j' : Nat, j' < j → j < n - min a n → pi + (min a n : Nat) + j ≠ po + j')
    (i : Nat) (hi : i < n - min a n) :
    SHIFT_LINE_LEFT m po pi n (a : Int) f (po + i)
      = pixmax (m (po + i)) (m (pi + (min a n : Nat) + i)) := by
  rw [SHIFT_LINE_LEFT_eq m po pi n a f hn ha han, fillLoop_frame]
  · have := maxLoop_at 1 (Or.inl rfl) (n - min a n) m po (pi + (min a n : Nat))
      (by intro j j' h1 h2; simpa using hread j j' h1 h2) i hi
    simpa using this
  · intro j _
    omega

/-- Left shift, filled part: byte `i` in `[n - c, n)` receives the fill expression. -/
theorem scalar_left_fill (m : Mem) (po pi : Int) (n a f : Nat)
    (hn : n < 4294967296) (ha : a < 4294967296) (han : n ≤ a → n < 2147483648)
    (i : Nat) (h1 : n - min a n ≤ i) (h2 : i < n) :
    SHIFT_LINE_LEFT m po pi n (a : Int) f (po + i) = fillmax (m (po + i)) f := by
  rw [SHIFT_LINE_LEFT_eq m po pi n a f hn ha han]
  have e : po + (i : Int) = (po + (n - min a n : Nat)) + 1 * ((i - (n - min a n) : Nat) : Int) := by
    omega
  rw [e, fillLoop_at 1 (Or.inl rfl) _ _ _ _ _ (by omega), maxLoop_frame]
  intro j hj
  omega

/-- Left shift: nothing is written outside the `n` bytes of the destination line. -/
theorem scalar_left_frame (m : Mem) (po pi : Int) (n a f : Nat)
    (hn : n < 4294967296) (ha : a < 4294967296) (han : n ≤ a → n < 2147483648)
    (x : Int) (hx : x < po ∨ po + n ≤ x) :
    SHIFT_LINE_LEFT m po pi n (a : Int) f x = m x := by
  rw [SHIFT_LINE_LEFT_eq m po pi n a f hn ha han, fillLoop_frame, maxLoop_frame]
  · intro j hj; omega
  · intro j hj; omega

/-- Right shift, merged part: byte `i` in `[c, n)` receives the maximum of itself and of
the source byte `i - c`, as long as the source bytes are read before being overwritten. -/
theorem scalar_right_merge (m : Mem) (po pi : Int) (n a f : Nat)
    (hn : n < 4294967296) (ha : a < 4294967296) (han : n ≤ a → n < 2147483648)
    (hread : ∀ j j' : Nat, j' < j → j < n - min a n →
      pi + n - 1 - (min a n : Nat) - j ≠ po + n - 1 - j')
    (i : Nat) (h1 : min a n ≤ i) (h2 : i < n) :
    SHIFT_LINE_RIGHT m po pi n (a : Int) f (po + i)
      = pixmax (m (po + i)) (m (pi + (i - min a n : Nat))) := by
  rw [SHIFT_LINE_RIGHT_eq m po pi n a f hn ha han, fillLoop_frame]
  · have := maxLoop_at (-1) (Or.inr rfl) (n - min a n) m (po + n - 1)
      (pi + n - 1 - (min a n : Nat))
      (by intro j j' h1 h2 h; apply hread j j' h1 h2; omega) (n - 1 - i) (by omega)
    have e1 : po + (n : Int) - 1 + -1 * ((n - 1 - i : Nat) : Int) = po + i := by omega
    have e2 : pi + (n : Int) - 1 - (min a n : Nat) + -1 * ((n - 1 - i : Nat) : Int)
        = pi + (i - min a n : Nat) := by omega
    rw [e1, e2] at this
    exact this
  · intro j _
    omega

/-- Right shift, filled part: byte `i` in `[0, c)` receives the fill expression. -/
theorem scalar_right_fill (m : Mem) (po pi : Int) (n a f : Nat)
    (hn : n < 4294967296) (ha : a < 4294967296) (han : n ≤ a → n < 2147483648)
    (i : Nat) (h1 : i < min a n) :
    SHIFT_LINE_RIGHT m po pi n (a : Int) f (po + i) = fillmax (m (po + i)) f := by
  rw [SHIFT_LINE_RIGHT_eq m po pi n a f hn ha han]
  have hc : min a n ≤ n := min_le_right a n
  have e : po + (i : Int) = (po + n - 1 - (n - min a n : Nat))
      + -1 * ((min a n - 1 - i : Nat) : Int) := by
    omega
  rw [e, fillLoop_at (-1) (Or.inr rfl) _ _ _ _ _ (by omega), maxLoop_frame]
  intro j hj
  omega

/-- Right shift: nothing is written outside the `n` bytes of the destination line. -/
theorem scalar_right_frame (m : Mem) (po pi : Int) (n a f : Nat)
    (hn : n < 4294967296) (ha : a < 4294967296) (han : n ≤ a → n < 2147483648)
    (x : Int) (hx : x < po ∨ po + n ≤ x) :
    SHIFT_LINE_RIGHT m po pi n (a : Int) f x = m x := by
  have hc : min a n ≤ n := min_le_right a n
  rw [SHIFT_LINE_RIGHT_eq m po pi n a f hn ha han, fillLoop_frame, maxLoop_frame]
  · intro j hj; omega
  · intro j hj; omega

/-! ## The line primitives as horizontal displacements -/

theorem fillmax_eq_max (o : PIX8) (f : Nat) (hf : f ≤ 255) : fillmax o f = max o (toPIX8 f) := by
  apply Fin.ext
  rw [fillmax_val_byte o f hf]
  have hv : (toPIX8 f).val = f := Nat.mod_eq_of_lt (by omega)
  rcases le_total o (toPIX8 f) with h | h
  · rw [max_eq_right h, hv]
    have : o.val ≤ (toPIX8 f).val := h
    omega
  · rw [max_eq_left h]
    have : (toPIX8 f).val ≤ o.val := h
    omega

theorem SHIFT_EDGE_LINE_at (m : Mem) (po : Int) (n f : Nat) (i : Nat) (hi : i < n) :
    SHIFT_EDGE_LINE m po n f (po + i) = fillmax (m (po + i)) f := by
  have := fillLoop_at 1 (Or.inl rfl) n m po f i hi
  simp only [one_mul] at this
  rw [SHIFT_EDGE_LINE, this]

theorem SHIFT_EDGE_LINE_frame (m : Mem) (po : Int) (n f : Nat) (z : Int)
    (hz : z < po ∨ po + n ≤ z) : SHIFT_EDGE_LINE m po n f z = m z := by
  rw [SHIFT_EDGE_LINE, fillLoop_frame]
  intro j hj
  omega

theorem hline_merge (n : Nat) (e : PIX8) :
    HLineSpec (fun m po pi => SHIFT_LINE m po pi n) n 0 e := by
  intro m po pi hd
  constructor
  · intro x hx
    have := maxLoop_at 1 (Or.inl rfl) n m po pi (by intro j j' h1 h2; omega) x hx
    simp only [one_mul] at this
    simp only [SHIFT_LINE, this, pixmax_eq_max, add_zero]
    rw [if_pos (by omega)]
  · intro z hz
    simp only [SHIFT_LINE]
    rw [maxLoop_frame]
    intro j hj
    omega

theorem hline_left (n f : Nat) (dx : Int) (hn : n < 2147483648) (hf : f ≤ 255)
    (h0 : 0 < dx) (h1 : dx < 2147483648) :
    HLineSpec (fun m po pi => SHIFT_LINE_LEFT m po pi n dx f) n dx (toPIX8 f) := by
  intro m po pi hd
  obtain ⟨a, rfl⟩ := Int.eq_ofNat_of_zero_le h0.le
  have hc : min a n ≤ n := min_le_right a n
  constructor
  · intro x hx
    by_cases hxa : x + a < n
    · rw [if_pos (by omega)]
      have := scalar_left_merge m po pi n a f (by omega) (by omega) (by omega)
        (by intro j j' h1 h2; omega) x (by omega)
      simp only [this, pixmax_eq_max]
      congr 2
      omega
    · rw [if_neg (by omega)]
      have := scalar_left_fill m po pi n a f (by omega) (by omega) (by omega) x
        (by omega) hx
      simp only [this, fillmax_eq_max _ _ hf]
  · intro z hz
    exact scalar_left_frame m po pi n a f (by omega) (by omega) (by omega) z hz

theorem hline_right (n f : Nat) (dx : Int) (hn : n < 2147483648) (hf : f ≤ 255)
    (h0 : dx < 0) (h1 : -2147483648 ≤ dx) :
    HLineSpec (fun m po pi => SHIFT_LINE_RIGHT m po pi n (-dx) f) n dx (toPIX8 f) := by
  intro m po pi hd
  obtain ⟨a, ha⟩ := Int.eq_ofNat_of_zero_le (show 0 ≤ -dx by omega)
  have hdx : dx = -(a : Int) := by omega
  subst hdx
  rw [neg_neg]
  have hc : min a n ≤ n := min_le_right a n
  constructor
  · intro x hx
    by_cases hxa : a ≤ x
    · rw [if_pos (by omega)]
      have := scalar_right_merge m po pi n a f (by omega) (by omega) (by omega)
        (by intro j j' h1 h2; omega) x (by omega) hx
      simp only [this, pixmax_eq_max]
      congr 2
      omega
    · rw [if_neg (by omega)]
      have := scalar_right_fill m po pi n a f (by omega) (by omega) (by omega) x
        (by omega)
      simp only [this, fillmax_eq_max _ _ hf]
  · intro z hz
    exact scalar_right_frame m po pi n a f (by omega) (by omega) (by omega) z hz

/-! ## The row loop of the drivers -/

/-- One row of the row loop: nothing is written outside the destination line. -/
theorem vecRow_frame (hline : Mem → Int → Int → Mem) (po pi : Nat → Int) (n h : Nat)
    (dx dy : Int) (f : Nat) (hspec : HLineSpec hline n dx (toPIX8 f))
    (hap : LinesApart po pi h n) (y : Nat) (hy : y < h) (m : Mem) (z : Int)
    (hz : z < po y ∨ po y + n ≤ z) :
    (if 0 ≤ (y : Int) + dy ∧ (y : Int) + dy < (h : Int) then
        hline m (po y) (pi ((y : Int) + dy).toNat)
      else SHIFT_EDGE_LINE m (po y) n f) z = m z := by
  split
  · next hc =>
    exact (hspec m (po y) (pi ((y : Int) + dy).toNat)
      (hap.2 y hy _ (by omega))).2 z hz
  · exact SHIFT_EDGE_LINE_frame m (po y) n f z hz

/-- One row of the row loop: the pixels of the destination line. -/
theorem vecRow_at (hline : Mem → Int → Int → Mem) (po pi : Nat → Int) (n h : Nat)
    (dx dy : Int) (f : Nat) (hf : f ≤ 255) (hspec : HLineSpec hline n dx (toPIX8 f))
    (hap : LinesApart po pi h n) (y : Nat) (hy : y < h) (m : Mem) (x : Nat) (hx : x < n) :
    (if 0 ≤ (y : Int) + dy ∧ (y : Int) + dy < (h : Int) then
        hline m (po y) (pi ((y : Int) + dy).toNat)
      else SHIFT_EDGE_LINE m (po y) n f) (po y + x)
      = supPixel m po pi n h dx dy (toPIX8 f) x y := by
  unfold supPixel
  split
  · next hc =>
    rw [(hspec m (po y) (pi ((y : Int) + dy).toNat) (hap.2 y hy _ (by omega))).1 x hx]
    by_cases hxx : 0 ≤ (x : Int) + dx ∧ (x : Int) + dx < n
    · rw [if_pos hxx, if_pos ⟨hc.1, hc.2, hxx.1, hxx.2⟩]
    · rw [if_neg hxx, if_neg (fun hh => hxx ⟨hh.2.2.1, hh.2.2.2⟩)]
  · next hc =>
    rw [SHIFT_EDGE_LINE_at m (po y) n f x hx, fillmax_eq_max _ _ hf,
      if_neg (fun hh => hc ⟨hh.1, hh.2.1⟩)]

/-- The value given to a pixel only depends on the destination line and on the source
lines. -/
theorem supPixel_congr (m m1 : Mem) (po pi : Nat → Int) (n h : Nat) (dx dy : Int) (e : PIX8)
    (x y : Nat) (hdst : m1 (po y + x) = m (po y + x))
    (hsrc : ∀ y', y' < h → ∀ x' : Nat, x' < n → m1 (pi y' + x') = m (pi y' + x')) :
    supPixel m1 po pi n h dx dy e x y = supPixel m po pi n h dx dy e x y := by
  unfold supPixel
  rw [hdst]
  split
  · next hc =>
    have := hsrc ((y : Int) + dy).toNat (by omega) ((x : Int) + dx).toNat (by omega)
    rw [Int.toNat_of_nonneg hc.2.2.1] at this
    rw [this]
  · rfl

/-- The row loop over the rows `y0, ..., y0 + k - 1`: nothing is written outside the
destination lines of these rows, and every pixel of these rows receives the value of
`supPixel` computed in the memory before the loop. -/
theorem vecRows_spec (hline : Mem → Int → Int → Mem) (po pi : Nat → Int) (n h : Nat)
    (dx dy : Int) (f : Nat) (hf : f ≤ 255) (hspec : HLineSpec hline n dx (toPIX8 f))
    (hap : LinesApart po pi h n) (k y0 : Nat) (m : Mem) (hk : y0 + k ≤ h) :
    (∀ z : Int, (∀ y, y0 ≤ y → y < y0 + k → z < po y ∨ po y + n ≤ z) →
      vecRows hline po pi n (h : Int) dy f k y0 m z = m z) ∧
    (∀ y, y0 ≤ y → y < y0 + k → ∀ x, x < n →
      vecRows hline po pi n (h : Int) dy f k y0 m (po y + x)
        = supPixel m po pi n h dx dy (toPIX8 f) x y) := by
  induction k generalizing y0 m with
  | zero =>
    constructor
    · intro z _; rfl
    · intro y h1 h2; omega
  | succ k ih =>
    simp only [vecRows]
    obtain ⟨ihf, iha⟩ := ih (y0 + 1)
      (if 0 ≤ (y0 : Int) + dy ∧ (y0 : Int) + dy < (h : Int) then
        hline m (po y0) (pi ((y0 : Int) + dy).toNat)
      else SHIFT_EDGE_LINE m (po y0) n f) (by omega)
    constructor
    · intro z hz
      rw [ihf z (fun y h1 h2 => hz y (by omega) (by omega))]
      exact vecRow_frame hline po pi n h dx dy f hspec hap y0 (by omega) m z
        (hz y0 (by omega) (by omega))
    · intro y h1 h2 x hx
      by_cases hy : y = y0
      · subst hy
        rw [ihf]
        · exact vecRow_at hline po pi n h dx dy f hf hspec hap y (by omega) m x hx
        · intro y' h1' h2'
          have := hap.1 y (by omega) y' (by omega) (by omega)
          omega
      · rw [iha y (by omega) (by omega) x hx]
        apply supPixel_congr
        · apply vecRow_frame hline po pi n h dx dy f hspec hap y0 (by omega) m
          have := hap.1 y (by omega) y0 (by omega) hy
          omega
        · intro y' hy' x' hx'
          apply vecRow_frame hline po pi n h dx dy f hspec hap y0 (by omega) m
          have := hap.2 y0 (by omega) y' hy'
          omega

/-! ## The orientation dispatch and the entry point -/

/-- The table lookup always finds a driver, and the driver found is the one of the sign
pattern of the vector. -/
theorem orientation_lookup (dx dy : Int) :
    ∃ fn, orientationFunc[CODE_ORIENTATION dx dy]? = some fn ∧
      ((dx = 0 ∧ dy = 0 ∧ fn = VEC_0_0) ∨ (dx < 0 ∧ dy = 0 ∧ fn = VEC_XNEG_0) ∨
       (0 < dx ∧ dy = 0 ∧ fn = VEC_XPOS_0) ∨ (dx = 0 ∧ dy ≠ 0 ∧ fn = VEC_0_Y) ∨
       (dx < 0 ∧ dy ≠ 0 ∧ fn = VEC_XNEG_Y) ∨ (0 < dx ∧ dy ≠ 0 ∧ fn = VEC_XPOS_Y)) := by
  have hx : signCode dx = 1 ∧ dx < 0 ∨ signCode dx = 2 ∧ 0 < dx ∨ signCode dx = 0 ∧ dx = 0 := by
    unfold signCode
    rcases lt_trichotomy dx 0 with h | h | h
    · left; exact ⟨if_pos h, h⟩
    · right; right; subst h; exact ⟨rfl, rfl⟩
    · right; left; rw [if_neg (by omega), if_pos h]; exact ⟨rfl, h⟩
  have hy : signCode dy = 1 ∧ dy < 0 ∨ signCode dy = 2 ∧ 0 < dy ∨ signCode dy = 0 ∧ dy = 0 := by
    unfold signCode
    rcases lt_trichotomy dy 0 with h | h | h
    · left; exact ⟨if_pos h, h⟩
    · right; right; subst h; exact ⟨rfl, rfl⟩
    · right; left; rw [if_neg (by omega), if_pos h]; exact ⟨rfl, h⟩
  unfold CODE_ORIENTATION
  rcases hx with ⟨ex, hx⟩ | ⟨ex, hx⟩ | ⟨ex, hx⟩ <;>
    rcases hy with ⟨ey, hy⟩ | ⟨ey, hy⟩ | ⟨ey, hy⟩ <;>
    rw [ex, ey]
  · exact ⟨_, rfl, Or.inr (Or.inr (Or.inr (Or.inr (Or.inl ⟨hx, by omega, rfl⟩))))⟩
  · exact ⟨_, rfl, Or.inr (Or.inr (Or.inr (Or.inr (Or.inl ⟨hx, by omega, rfl⟩))))⟩
  · exact ⟨_, rfl, Or.inr (Or.inl ⟨hx, hy, rfl⟩)⟩
  · exact ⟨_, rfl, Or.inr (Or.inr (Or.inr (Or.inr (Or.inr ⟨hx, by omega, rfl⟩))))⟩
  · exact ⟨_, rfl, Or.inr (Or.inr (Or.inr (Or.inr (Or.inr ⟨hx, by omega, rfl⟩))))⟩
  · exact ⟨_, rfl, Or.inr (Or.inr (Or.inl ⟨hx, hy, rfl⟩))⟩
  · exact ⟨_, rfl, Or.inr (Or.inr (Or.inr (Or.inl ⟨hx, by omega, rfl⟩)))⟩
  · exact ⟨_, rfl, Or.inr (Or.inr (Or.inr (Or.inl ⟨hx, by omega, rfl⟩)))⟩
  · exact ⟨_, rfl, Or.inl ⟨hx, hy, rfl⟩⟩

/-- Each driver is the row loop of a line primitive that realises the horizontal
displacement `dx`. -/
theorem driver_rows (fn : VECFUNC) (n h f : Nat) (dx dy : Int)
    (hn : n < 2147483648) (hf : f ≤ 255)
    (hdx : -2147483648 ≤ dx ∧ dx < 2147483648)
    (hfn : (dx = 0 ∧ dy = 0 ∧ fn = VEC_0_0) ∨ (dx < 0 ∧ dy = 0 ∧ fn = VEC_XNEG_0) ∨
       (0 < dx ∧ dy = 0 ∧ fn = VEC_XPOS_0) ∨ (dx = 0 ∧ dy ≠ 0 ∧ fn = VEC_0_Y) ∨
       (dx < 0 ∧ dy ≠ 0 ∧ fn = VEC_XNEG_Y) ∨ (0 < dx ∧ dy ≠ 0 ∧ fn = VEC_XPOS_Y)) :
    ∃ hline, HLineSpec hline n dx (toPIX8 f) ∧
      ∀ (m : Mem) (po pi : Nat → Int),
        fn m po pi n (h : Int) dx dy f = vecRows hline po pi n (h : Int) dy f h 0 m := by
  rcases hfn with ⟨h1, h2, rfl⟩ | ⟨h1, h2, rfl⟩ | ⟨h1, h2, rfl⟩ | ⟨h1, _, rfl⟩ |
    ⟨h1, _, rfl⟩ | ⟨h1, _, rfl⟩
  · subst h1 h2
    exact ⟨_, hline_merge n _, fun m po pi => by simp [VEC_0_0]⟩
  · subst h2
    exact ⟨_, hline_right n f dx hn hf h1 hdx.1, fun m po pi => by simp [VEC_XNEG_0]⟩
  · subst h2
    exact ⟨_, hline_left n f dx hn hf h1 hdx.2, fun m po pi => by simp [VEC_XPOS_0]⟩
  · subst h1
    exact ⟨_, hline_merge n _, fun m po pi => by simp [VEC_0_Y]⟩
  · exact ⟨_, hline_right n f dx hn hf h1 hdx.1, fun m po pi => by simp [VEC_XNEG_Y]⟩
  · exact ⟨_, hline_left n f dx hn hf h1 hdx.2, fun m po pi => by simp [VEC_XPOS_Y]⟩

theorem GREY_FILL_VALUE_le (edge : MB_edgemode_t) : GREY_FILL_VALUE edge ≤ 255 := by
  cases edge <;> decide

/-- The neighbour maximum on two 8-bit images of the same size whose lines are apart:
the call succeeds, writes nothing outside the lines of `srcdest` and gives every pixel of
`srcdest` the value of `supPixel`. -/
theorem MB_SupVector8_spec (m : Mem) (src srcdest : MB_Image) (dx dy : Int)
    (edge : MB_edgemode_t)
    (hw : src.width = srcdest.width) (hh : src.height = srcdest.height)
    (hd1 : src.depth = 8) (hd2 : srcdest.depth = 8)
    (hwb : src.width < 2147483648) (hhb : src.height < 2147483648)
    (hdx : -2147483648 ≤ dx ∧ dx < 2147483648)
    (hap : LinesApart srcdest.plines src.plines src.height src.width) :
    ∃ m', MB_SupVector8 m src srcdest dx dy edge = some (.NO_ERR, m') ∧
      (∀ z : Int, (∀ y, y < src.height →
          z < srcdest.plines y ∨ srcdest.plines y + src.width ≤ z) → m' z = m z) ∧
      (∀ y, y < src.height → ∀ x, x < src.width →
        m' (srcdest.plines y + x)
          = supPixel m srcdest.plines src.plines src.width src.height dx dy
              (toPIX8 (GREY_FILL_VALUE edge)) x y) := by
  obtain ⟨fn, hlook, hfn⟩ := orientation_lookup dx dy
  obtain ⟨hline, hspec, hrows⟩ := driver_rows fn src.width src.height (GREY_FILL_VALUE edge)
    dx dy hwb (GREY_FILL_VALUE_le edge) hdx hfn
  have hsize : MB_CHECK_SIZE_2 src srcdest = true := by
    simp [MB_CHECK_SIZE_2, hw, hh]
  have hpair : MB_PROBE_PAIR src srcdest = MB_PAIR_8_8 := by
    simp [MB_PROBE_PAIR, MB_PAIR_8_8, hd1, hd2]
  have hcount : MB_LINE_COUNT src = src.width := by
    unfold MB_LINE_COUNT
    rw [hd1]
    omega
  have hcall : MB_SupVector8 m src srcdest dx dy edge
      = some (.NO_ERR, vecRows hline srcdest.plines src.plines src.width (src.height : Int) dy
          (GREY_FILL_VALUE edge) src.height 0 m) := by
    unfold MB_SupVector8
    simp only [hsize, hpair, hlook, hcount, toSint32_small src.height hhb, hrows]
    simp
  obtain ⟨hframe, hat⟩ := vecRows_spec hline srcdest.plines src.plines src.width src.height
    dx dy (GREY_FILL_VALUE edge) (GREY_FILL_VALUE_le edge) hspec hap src.height 0 m (by omega)
  refine ⟨_, hcall, ?_, ?_⟩
  · intro z hz
    exact hframe z (fun y _ h2 => hz y (by omega))
  · intro y hy x hx
    exact hat y (by omega) (by omega) x hx

/-! ## The loops of the vectorized shifts -/

theorem MB_vec8_store_at (m : Mem) (p : Int) (v : MB_Vector8) (j : Nat) (hj : j < 16) :
    MB_vec8_store m p v (p + j) = v j := by
  unfold MB_vec8_store
  rw [if_pos (by omega)]
  congr 1
  omega

theorem MB_vec8_store_frame (m : Mem) (p : Int) (v : MB_Vector8) (x : Int)
    (hx : x < p ∨ p + 16 ≤ x) : MB_vec8_store m p v x = m x := by
  unfold MB_vec8_store
  rw [if_neg (by omega)]

/-- Addresses outside the registers visited by the vector fill loop keep their content. -/
theorem vecFillLoop_frame (d : Int) (edge : MB_Vector8) (k : Nat) (m : Mem) (pout x : Int)
    (h : ∀ t : Nat, t < k → x < pout + d * t ∨ pout + d * t + 16 ≤ x) :
    vecFillLoop d edge k m pout x = m x := by
  induction k generalizing m pout with
  | zero => rfl
  | succ k ih =>
    simp only [vecFillLoop]
    rw [ih]
    · apply MB_vec8_store_frame
      have := h 0 (Nat.succ_pos k)
      simpa using this
    · intro t ht
      have := h (t + 1) (Nat.succ_lt_succ ht)
      have e : pout + d * ((t + 1 : Nat) : Int) = pout + d + d * t := by push_cast; ring
      rw [e] at this
      exact this

/-- Byte `j` of the register `t` of the vector fill loop. -/
theorem vecFillLoop_at (d : Int) (hd : d = 16 ∨ d = -16) (edge : MB_Vector8) (k : Nat)
    (m : Mem) (pout : Int) (t : Nat) (ht : t < k) (j : Nat) (hj : j < 16) :
    vecFillLoop d edge k m pout (pout + d * t + j)
      = pixmax (m (pout + d * t + j)) (edge j) := by
  induction k generalizing m pout t with
  | zero => omega
  | succ k ih =>
    simp only [vecFillLoop]
    cases t with
    | zero =>
      rw [vecFillLoop_frame]
      · simp only [Nat.cast_zero, mul_zero, add_zero]
        rw [MB_vec8_store_at _ _ _ _ hj]
        rfl
      · intro t' _
        rcases hd with rfl | rfl <;> push_cast <;> omega
    | succ t =>
      have e : pout + d * ((t + 1 : Nat) : Int) + j = (pout + d) + d * t + j := by
        push_cast; ring
      rw [e, ih _ _ t (by omega), MB_vec8_store_frame]
      rcases hd with rfl | rfl <;> omega

/-- Addresses outside the registers visited by the vector merge loop keep their content. -/
theorem vecMaxLoop_frame (d : Int) (k : Nat) (m : Mem) (pout pin x : Int)
    (h : ∀ t : Nat, t < k → x < pout + d * t ∨ pout + d * t + 16 ≤ x) :
    vecMaxLoop d k m pout pin x = m x := by
  induction k generalizing m pout pin with
  | zero => rfl
  | succ k ih =>
    simp only [vecMaxLoop]
    rw [ih]
    · apply MB_vec8_store_frame
      have := h 0 (Nat.succ_pos k)
      simpa using this
    · intro t ht
      have := h (t + 1) (Nat.succ_lt_succ ht)
      have e : pout + d * ((t + 1 : Nat) : Int) = pout + d + d * t := by push_cast; ring
      rw [e] at this
      exact this

/-- Byte `j` of the register `t` of the vector merge loop, when no source byte is read
after it has been written. -/
theorem vecMaxLoop_at (d : Int) (hd : d = 16 ∨ d = -16) (k : Nat) (m : Mem) (pout pin : Int)
    (hread : ∀ t t' : Nat, t' < t → t < k → ∀ j j' : Nat, j < 16 → j' < 16 →
      pin + d * t + j ≠ pout + d * t' + j')
    (t : Nat) (ht : t < k) (j : Nat) (hj : j < 16) :
    vecMaxLoop d k m pout pin (pout + d * t + j)
      = pixmax (m (pout + d * t + j)) (m (pin + d * t + j)) := by
  induction k generalizing m pout pin t with
  | zero => omega
  | succ k ih =>
    simp only [vecMaxLoop]
    cases t with
    | zero =>
      rw [vecMaxLoop_frame]
      · simp only [Nat.cast_zero, mul_zero, add_zero]
        rw [MB_vec8_store_at _ _ _ _ hj]
        rfl
      · intro t' _
        rcases hd with rfl | rfl <;> push_cast <;> omega
    | succ t =>
      have e1 : pout + d * ((t + 1 : Nat) : Int) + j = (pout + d) + d * t + j := by
        push_cast; ring
      have e2 : pin + d * ((t + 1 : Nat) : Int) + j = (pin + d) + d * t + j := by
        push_cast; ring
      rw [e1, e2, ih _ _ _ _ t (by omega)]
      · rw [MB_vec8_store_frame, MB_vec8_store_frame]
        · have := hread (t + 1) 0 (by omega) (by omega) j
          rw [e2] at this
          by_contra hc
          have hin : pout ≤ pin + d + d * t + j ∧ pin + d + d * t + j < pout + 16 := by omega
          exact this (pin + d + d * t + j - pout).toNat hj (by omega) (by
            simp only [Nat.cast_zero, mul_zero, add_zero]; omega)
        · rcases hd with rfl | rfl <;> omega
      · intro a b hab ha j1 j2 h1 h2
        have := hread (a + 1) (b + 1) (by omega) (by omega) j1 j2 h1 h2
        intro hx
        apply this
        push_cast
        linear_combination hx

theorem pix_or_zero (x : PIX8) : x ||| 0 = x := by
  apply Fin.ext
  show (x.val ||| 0) % 256 = x.val
  rw [Nat.or_zero, Nat.mod_eq_of_lt x.isLt]

theorem pix_zero_or (x : PIX8) : 0 ||| x = x := by
  apply Fin.ext
  show (0 ||| x.val) % 256 = x.val
  rw [Nat.zero_or, Nat.mod_eq_of_lt x.isLt]

/-- Byte `j` of the register built by the `switch` and the `or` of the left shift, for an
intra register shift `r` in `1..15`: the source byte `j + r`, taken in the next register
when `j + r >= 16`, or in `edge` in the iteration `i = last`. -/
theorem intraRegLeft_val (r : Nat) (hr1 : 1 ≤ r) (hr2 : r ≤ 15) (edge : MB_Vector8)
    (last i : Nat) (m : Mem) (pin : Int) (j : Nat) (_hj : j < 16) :
    intraRegLeft r edge last i m pin j
      = if j + r < 16 then m (pin + ((j + r : Nat) : Int))
        else if i = last then edge (j + r - 16) else m (pin + ((j + r : Nat) : Int)) := by
  simp only [intraRegLeft, MB_vec8_or, MB_vec8_shrgt, MB_vec8_shlft, MB_vec8_load, hr1, hr2,
    and_self, if_true]
  by_cases h : j + r < 16
  · rw [if_pos h, if_pos h, if_neg (by omega), pix_or_zero]
  · rw [if_neg h, if_neg h, if_pos (by omega), pix_zero_or]
    by_cases hl : i = last
    · rw [if_pos hl, if_pos hl]
      congr 1
      omega
    · rw [if_neg hl, if_neg hl]
      show m (pin + 16 + ((j - (16 - r) : Nat) : Int)) = m (pin + ((j + r : Nat) : Int))
      congr 1
      omega

/-- Byte `j` of the register built by the `switch` and the `or` of the right shift, for an
intra register shift `r` in `1..15`: the source byte `j - r`, taken in the previous
register when `j < r`, or in `edge` in the iteration `i = last`. -/
theorem intraRegRight_val (r : Nat) (hr1 : 1 ≤ r) (hr2 : r ≤ 15) (edge : MB_Vector8)
    (last i : Nat) (m : Mem) (pin : Int) (j : Nat) (hj : j < 16) :
    intraRegRight r edge last i m pin j
      = if r ≤ j then m (pin + (j : Int) - r)
        else if i = last then edge (j + 16 - r) else m (pin + (j : Int) - r) := by
  simp only [intraRegRight, MB_vec8_or, MB_vec8_shrgt, MB_vec8_shlft, MB_vec8_load, hr1, hr2,
    and_self, if_true]
  by_cases h : r ≤ j
  · rw [if_pos h, if_pos h, if_neg (by omega), pix_or_zero]
    congr 1
    omega
  · rw [if_neg h, if_neg h, if_pos (by omega), pix_zero_or]
    by_cases hl : i = last
    · rw [if_pos hl, if_pos hl]
      congr 1
      omega
    · rw [if_neg hl, if_neg hl]
      show m (pin - 16 + ((j + (16 - r) : Nat) : Int)) = m (pin + (j : Int) - r)
      congr 1
      omega

/-- Addresses outside the registers visited by the intra-shift loop of the left shift
keep their content. -/
theorem intraLoopLeft_frame (r : Nat) (edge : MB_Vector8) (last k i : Nat) (m : Mem)
    (pout pin x : Int) (h : ∀ t : Nat, t < k → x < pout + 16 * t ∨ pout + 16 * t + 16 ≤ x) :
    intraLoopLeft r edge last k i m pout pin x = m x := by
  induction k generalizing i m pout pin with
  | zero => rfl
  | succ k ih =>
    simp only [intraLoopLeft]
    rw [ih]
    · apply MB_vec8_store_frame
      have := h 0 (Nat.succ_pos k)
      simpa using this
    · intro t ht
      have := h (t + 1) (Nat.succ_lt_succ ht)
      push_cast at this
      omega

/-- Addresses outside the registers visited by the intra-shift loop of the right shift
keep their content. -/
theorem intraLoopRight_frame (r : Nat) (edge : MB_Vector8) (last k i : Nat) (m : Mem)
    (pout pin x : Int) (h : ∀ t : Nat, t < k → x < pout - 16 * t ∨ pout - 16 * t + 16 ≤ x) :
    intraLoopRight r edge last k i m pout pin x = m x := by
  induction k generalizing i m pout pin with
  | zero => rfl
  | succ k ih =>
    simp only [intraLoopRight]
    rw [ih]
    · apply MB_vec8_store_frame
      have := h 0 (Nat.succ_pos k)
      simpa using this
    · intro t ht
      have := h (t + 1) (Nat.succ_lt_succ ht)
      push_cast at this
      omega

/-- Byte `j` of the register `t` of the intra-shift loop of the left shift, when no source
byte is read after it has been written. -/
theorem intraLoopLeft_at (r : Nat) (hr1 : 1 ≤ r) (hr2 : r ≤ 15) (edge : MB_Vector8)
    (last k i : Nat) (hi : i < 4294967296) (m : Mem) (pout pin : Int)
    (hread : ∀ t t' : Nat, t' < t → t < k → ∀ j j' : Nat, j < 16 → j' < 16 →
      pin + 16 * t + j ≠ pout + 16 * t' + j' ∧
      ((i + 16 * t) % 4294967296 ≠ last → pin + 16 * t + 16 + j ≠ pout + 16 * t' + j'))
    (t : Nat) (ht : t < k) (j : Nat) (hj : j < 16) :
    intraLoopLeft r edge last k i m pout pin (pout + 16 * t + j)
      = pixmax (m (pout + 16 * t + j))
          (if j + r < 16 then m (pin + 16 * t + ((j + r : Nat) : Int))
           else if (i + 16 * t) % 4294967296 = last then edge (j + r - 16)
           else m (pin + 16 * t + ((j + r : Nat) : Int))) := by
  induction k generalizing i m pout pin t with
  | zero => omega
  | succ k ih =>
    simp only [intraLoopLeft]
    cases t with
    | zero =>
      rw [intraLoopLeft_frame]
      · simp only [Nat.cast_zero, mul_zero, add_zero]
        rw [MB_vec8_store_at _ _ _ _ hj, Nat.mod_eq_of_lt hi]
        simp only [MB_vec8_max, MB_vec8_load, intraRegLeft_val r hr1 hr2 _ _ _ _ _ j hj]
      · intro t' _
        push_cast
        omega
    | succ t =>
      have e1 : pout + 16 * ((t + 1 : Nat) : Int) + j = (pout + 16) + 16 * t + j := by
        push_cast; ring
      have e2 : pin + 16 * ((t + 1 : Nat) : Int) + ((j + r : Nat) : Int)
          = (pin + 16) + 16 * t + ((j + r : Nat) : Int) := by
        push_cast; ring
      have e3 : (i + 16 * (t + 1)) % 4294967296 = ((i + 16) % 4294967296 + 16 * t) % 4294967296 := by
        omega
      rw [e1, e2, e3, ih ((i + 16) % 4294967296) (Nat.mod_lt _ (by decide)) _ _ _ _ t (by omega)]
      · have hdst : MB_vec8_store m pout
            (MB_vec8_max (MB_vec8_load m pout) (intraRegLeft r edge last i m pin))
            (pout + 16 + 16 * t + j) = m (pout + 16 + 16 * t + j) :=
          MB_vec8_store_frame _ _ _ _ (by omega)
        rw [hdst]
        congr 1
        have hr := hread (t + 1) 0 (by omega) (by omega)
        by_cases h1 : j + r < 16
        · rw [if_pos h1, if_pos h1]
          apply MB_vec8_store_frame
          by_contra hc
          have := (hr (j + r) (pin + 16 + 16 * t + ((j + r : Nat) : Int) - pout).toNat h1
            (by omega)).1
          apply this
          push_cast
          omega
        · rw [if_neg h1, if_neg h1]
          by_cases h2 : ((i + 16) % 4294967296 + 16 * t) % 4294967296 = last
          · rw [if_pos h2, if_pos h2]
          · rw [if_neg h2, if_neg h2]
            apply MB_vec8_store_frame
            by_contra hc
            have := (hr (j + r - 16) (pin + 16 + 16 * t + ((j + r : Nat) : Int) - pout).toNat
              (by omega) (by omega)).2 (by rw [e3]; exact h2)
            apply this
            push_cast
            omega
      · intro a b hab ha j1 j2 h1 h2
        have := hread (a + 1) (b + 1) (by omega) (by omega) j1 j2 h1 h2
        have e4 : (i + 16 * (a + 1)) % 4294967296
            = ((i + 16) % 4294967296 + 16 * a) % 4294967296 := by omega
        rw [e4] at this
        push_cast at this
        constructor
        · intro hx
          apply this.1
          omega
        · intro hl hx
          apply this.2 hl
          omega

/-- Byte `j` of the register `t` of the intra-shift loop of the right shift, when no
source byte is read after it has been written. -/
theorem intraLoopRight_at (r : Nat) (hr1 : 1 ≤ r) (hr2 : r ≤ 15) (edge : MB_Vector8)
    (last k i : Nat) (hi : i < 4294967296) (m : Mem) (pout pin : Int)
    (hread : ∀ t t' : Nat, t' < t → t < k → ∀ j j' : Nat, j < 16 → j' < 16 →
      pin - 16 * t + j ≠ pout - 16 * t' + j' ∧
      ((i + 16 * t) % 4294967296 ≠ last → pin - 16 * t - 16 + j ≠ pout - 16 * t' + j'))
    (t : Nat) (ht : t < k) (j : Nat) (hj : j < 16) :
    intraLoopRight r edge last k i m pout pin (pout - 16 * t + j)
      = pixmax (m (pout - 16 * t + j))
          (if r ≤ j then m (pin - 16 * t + (j : Int) - r)
           else if (i + 16 * t) % 4294967296 = last then edge (j + 16 - r)
           else m (pin - 16 * t + (j : Int) - r)) := by
  induction k generalizing i m pout pin t with
  | zero => omega
  | succ k ih =>
    simp only [intraLoopRight]
    cases t with
    | zero =>
      rw [intraLoopRight_frame]
      · simp only [Nat.cast_zero, mul_zero, sub_zero]
        rw [MB_vec8_store_at _ _ _ _ hj, Nat.add_zero, Nat.mod_eq_of_lt hi]
        simp only [MB_vec8_max, MB_vec8_load, intraRegRight_val r hr1 hr2 _ _ _ _ _ j hj]
      · intro t' _
        push_cast
        omega
    | succ t =>
      have e1 : pout - 16 * ((t + 1 : Nat) : Int) + j = (pout - 16) - 16 * t + j := by
        push_cast; ring
      have e2 : pin - 16 * ((t + 1 : Nat) : Int) + (j : Int) - r
          = (pin - 16) - 16 * t + (j : Int) - r := by
        push_cast; ring
      have e3 : (i + 16 * (t + 1)) % 4294967296 = ((i + 16) % 4294967296 + 16 * t) % 4294967296 := by
        omega
      rw [e1, e2, e3, ih ((i + 16) % 4294967296) (Nat.mod_lt _ (by decide)) _ _ _ _ t (by omega)]
      · have hdst : MB_vec8_store m pout
            (MB_vec8_max (MB_vec8_load m pout) (intraRegRight r edge last i m pin))
            (pout - 16 - 16 * t + j) = m (pout - 16 - 16 * t + j) :=
          MB_vec8_store_frame _ _ _ _ (by omega)
        rw [hdst]
        congr 1
        have hr := hread (t + 1) 0 (by omega) (by omega)
        by_cases h1 : r ≤ j
        · rw [if_pos h1, if_pos h1]
          apply MB_vec8_store_frame
          by_contra hc
          have := (hr (j - r) (pin - 16 - 16 * t + (j : Int) - r - pout).toNat (by omega)
            (by omega)).1
          apply this
          push_cast
          omega
        · rw [if_neg h1, if_neg h1]
          by_cases h2 : ((i + 16) % 4294967296 + 16 * t) % 4294967296 = last
          · rw [if_pos h2, if_pos h2]
          · rw [if_neg h2, if_neg h2]
            apply MB_vec8_store_frame
            by_contra hc
            have := (hr (j + 16 - r) (pin - 16 - 16 * t + (j : Int) - r - pout).toNat
              (by omega) (by omega)).2 (by rw [e3]; exact h2)
            apply this
            push_cast
            omega
      · intro a b hab ha j1 j2 h1 h2
        have := hread (a + 1) (b + 1) (by omega) (by omega) j1 j2 h1 h2
        have e4 : (i + 16 * (a + 1)) % 4294967296
            = ((i + 16) % 4294967296 + 16 * a) % 4294967296 := by omega
        rw [e4] at this
        push_cast at this
        constructor
        · intro hx
          apply this.1
          omega
        · intro hl hx
          apply this.2 hl
          omega

/-! ## The vectorized shifts on a line of whole registers -/

/-- The register of the fill values 0 and `0xFFFFFFFF` holds the same byte everywhere. -/
theorem MB_vec8_set32_uniform (f : Nat) (hf : f = 0 ∨ f = 4294967295) (j : Nat) :
    MB_vec8_set32 f j = toPIX8 f := by
  unfold MB_vec8_set32
  rcases hf with rfl | rfl
  · simp
  · have : j % 4 = 0 ∨ j % 4 = 1 ∨ j % 4 = 2 ∨ j % 4 = 3 := by omega
    rcases this with h | h | h | h <;> rw [h] <;> decide

/-- For the fill values 0 and `0xFFFFFFFF` the scalar fill expression is the maximum with
the fill byte. -/
theorem fillmax_edge (o : PIX8) (f : Nat) (hf : f = 0 ∨ f = 4294967295) :
    fillmax o f = pixmax o (toPIX8 f) := by
  rcases hf with rfl | rfl
  · unfold fillmax pixmax
    have h0 : toPIX8 0 = 0 := rfl
    rw [h0]
    by_cases h : 0 < o.val
    · rw [if_pos h, if_pos (Fin.lt_def.mpr h)]
    · rw [if_neg h, if_neg (fun hh => h (Fin.lt_def.mp hh))]
  · unfold fillmax pixmax
    have h255 : (toPIX8 4294967295).val = 255 := by decide
    have := o.isLt
    rw [if_neg (by omega), if_neg]
    intro hh
    have := Fin.lt_def.mp hh
    omega

/-- The vectorized left shift on a line of `N` registers, for a non-negative amount:
`q` whole registers and an intra register shift `a % 16`. -/
theorem SHIFT_LINE_LEFT_vec_eq (m : Mem) (po pi : Int) (N a f : Nat)
    (hn : 16 * N < 4294967296) (ha : a < 2147483648) (q : Nat)
    (hq : q = if a < 16 * N then a / 16 else N) :
    SHIFT_LINE_LEFT_vec m po pi (16 * N) (a : Int) f
      = vecFillLoop 16 (MB_vec8_set32 f) q
          (if a % 16 = 0 then vecMaxLoop 16 (N - q) m po (pi + (q : Int) * 16)
           else intraLoopLeft (a % 16) (MB_vec8_set32 f)
             (toUint32 (((16 * N : Nat) : Int) - ((q : Int) + 1) * 16)) (N - q) 0 m po
             (pi + (q : Int) * 16))
          (po + 16 * ((N - q : Nat) : Int)) := by
  have hdiv : toUint32 (Int.tdiv (a : Int) 16) = a / 16 := by
    have : Int.tdiv (a : Int) 16 = ((a / 16 : Nat) : Int) := rfl
    rw [this, toUint32_natCast _ (by omega)]
  have hmod : toUint32 (Int.tmod (a : Int) 16) = a % 16 := by
    have : Int.tmod (a : Int) 16 = ((a % 16 : Nat) : Int) := rfl
    rw [this, toUint32_natCast _ (by omega)]
  have hq' : (if toUint32 (a : Int) < 16 * N then toUint32 (Int.tdiv (a : Int) 16)
      else 16 * N / 16) = q := by
    rw [toUint32_natCast a (by omega), hdiv, hq]
    split
    · rfl
    · omega
  have hqN : q ≤ N := by
    rw [hq]; split <;> omega
  have hL : vecIter ((((16 * N : Nat) : Int) - (q : Int) * 16) % 18446744073709551616).toNat
      = N - q := by
    unfold vecIter
    omega
  simp only [SHIFT_LINE_LEFT_vec, hq', hmod, hL]

/-- The vectorized right shift on a line of `N` registers, for a non-negative amount. -/
theorem SHIFT_LINE_RIGHT_vec_eq (m : Mem) (po pi : Int) (N a f : Nat)
    (hn : 16 * N < 4294967296) (ha : a < 2147483648) (q : Nat)
    (hq : q = if a < 16 * N then a / 16 else N) :
    SHIFT_LINE_RIGHT_vec m po pi (16 * N) (a : Int) f
      = vecFillLoop (-16) (MB_vec8_set32 f) q
          (if a % 16 = 0 then
             vecMaxLoop (-16) (N - q) m (po + ((16 * N : Nat) : Int) - 16)
               (pi + ((16 * N : Nat) : Int) - ((q : Int) + 1) * 16)
           else intraLoopRight (a % 16) (MB_vec8_set32 f)
             (toUint32 (((16 * N : Nat) : Int) - ((q : Int) + 1) * 16)) (N - q) 0 m
             (po + ((16 * N : Nat) : Int) - 16)
             (pi + ((16 * N : Nat) : Int) - ((q : Int) + 1) * 16))
          (po + ((16 * N : Nat) : Int) - 16 - 16 * ((N - q : Nat) : Int)) := by
  have hdiv : toUint32 (Int.tdiv (a : Int) 16) = a / 16 := by
    have : Int.tdiv (a : Int) 16 = ((a / 16 : Nat) : Int) := rfl
    rw [this, toUint32_natCast _ (by omega)]
  have hmod : toUint32 (Int.tmod (a : Int) 16) = a % 16 := by
    have : Int.tmod (a : Int) 16 = ((a % 16 : Nat) : Int) := rfl
    rw [this, toUint32_natCast _ (by omega)]
  have hq' : (if toUint32 (a : Int) < 16 * N then toUint32 (Int.tdiv (a : Int) 16)
      else 16 * N / 16) = q := by
    rw [toUint32_natCast a (by omega), hdiv, hq]
    split
    · rfl
    · omega
  have hqN : q ≤ N := by
    rw [hq]; split <;> omega
  have hL : vecIter ((((16 * N : Nat) : Int) - (q : Int) * 16) % 18446744073709551616).toNat
      = N - q := by
    unfold vecIter
    omega
  simp only [SHIFT_LINE_RIGHT_vec, hq', hmod, hL]

/-- The vectorized left shift on two disjoint lines of `N` registers, with a fill register
holding the byte `e` everywhere: the merged part, the filled part and the frame. -/
theorem vec_left_spec (m : Mem) (po pi : Int) (N a f : Nat)
    (hn : 16 * N < 4294967296) (ha : a < 2147483648)
    (hdisj : po + ((16 * N : Nat) : Int) ≤ pi ∨ pi + ((16 * N : Nat) : Int) ≤ po)
    (e : PIX8) (he : ∀ j, MB_vec8_set32 f j = e) :
    (∀ i : Nat, i < 16 * N - min a (16 * N) →
      SHIFT_LINE_LEFT_vec m po pi (16 * N) (a : Int) f (po + i)
        = pixmax (m (po + i)) (m (pi + (min a (16 * N) : Nat) + i))) ∧
    (∀ i : Nat, 16 * N - min a (16 * N) ≤ i → i < 16 * N →
      SHIFT_LINE_LEFT_vec m po pi (16 * N) (a : Int) f (po + i) = pixmax (m (po + i)) e) ∧
    (∀ x : Int, x < po ∨ po + ((16 * N : Nat) : Int) ≤ x →
      SHIFT_LINE_LEFT_vec m po pi (16 * N) (a : Int) f x = m x) := by
  obtain ⟨q, hq⟩ : ∃ q, q = if a < 16 * N then a / 16 else N := ⟨_, rfl⟩
  have hqN : q ≤ N := by
    rw [hq]; split <;> omega
  have hqa : a < 16 * N → q = a / 16 := fun h => by rw [hq, if_pos h]
  have hqb : ¬ a < 16 * N → q = N := fun h => by rw [hq, if_neg h]
  have hc : min a (16 * N) ≤ 16 * N := min_le_right _ _
  rw [SHIFT_LINE_LEFT_vec_eq m po pi N a f hn ha q hq]
  generalize hm1 : (if a % 16 = 0 then vecMaxLoop 16 (N - q) m po (pi + (q : Int) * 16)
      else intraLoopLeft (a % 16) (MB_vec8_set32 f)
        (toUint32 (((16 * N : Nat) : Int) - ((q : Int) + 1) * 16)) (N - q) 0 m po
        (pi + (q : Int) * 16)) = m1
  have hframe1 : ∀ x : Int, x < po ∨ po + 16 * ((N - q : Nat) : Int) ≤ x → m1 x = m x := by
    intro x hx
    rw [← hm1]
    split
    · apply vecMaxLoop_frame
      intro t ht
      omega
    · apply intraLoopLeft_frame
      intro t ht
      omega
  have hat1 : ∀ t j : Nat, t < N - q → j < 16 →
      m1 (po + 16 * t + j) = pixmax (m (po + 16 * t + j))
        (if 16 * t + j + a < 16 * N then m (pi + a + 16 * t + j) else e) := by
    intro t j ht hj
    have haN : a < 16 * N := by
      by_contra h
      have := hqb h
      omega
    have hqe := hqa haN
    rw [← hm1]
    by_cases hr : a % 16 = 0
    · rw [if_pos hr, vecMaxLoop_at 16 (Or.inl rfl) _ _ _ _
        (by intro t1 t2 h1 h2 j1 j2 h3 h4; omega) t ht j hj, if_pos (by omega)]
      congr 2
      omega
    · have hlast : toUint32 (((16 * N : Nat) : Int) - ((q : Int) + 1) * 16)
          = 16 * N - 16 * (q + 1) := by
        unfold toUint32
        omega
      rw [if_neg hr, hlast, intraLoopLeft_at (a % 16) (by omega) (by omega) _ _ _ 0
        (by decide) _ _ _ (by intro t1 t2 h1 h2 j1 j2 h3 h4; omega) t ht j hj]
      congr 1
      by_cases h1 : j + a % 16 < 16
      · rw [if_pos h1, if_pos (by omega)]
        congr 1
        omega
      · rw [if_neg h1]
        by_cases h2 : (0 + 16 * t) % 4294967296 = 16 * N - 16 * (q + 1)
        · rw [if_pos h2, if_neg (by omega), he]
        · rw [if_neg h2, if_pos (by omega)]
          congr 1
          omega
  refine ⟨?_, ?_, ?_⟩
  · intro i hi
    have haN : a < 16 * N := by
      by_contra h
      rw [min_eq_right (by omega)] at hi
      omega
    rw [min_eq_left haN.le] at hi ⊢
    have hqe := hqa haN
    rw [vecFillLoop_frame _ _ _ _ _ _ (by intro t ht; omega)]
    have e1 : po + (i : Int) = po + 16 * ((i / 16 : Nat) : Int) + ((i % 16 : Nat) : Int) := by
      omega
    rw [e1, hat1 (i / 16) (i % 16) (by omega) (by omega), if_pos (by omega)]
    congr 2
    omega
  · intro i h1 h2
    by_cases hi : i < 16 * (N - q)
    · have haN : a < 16 * N := by
        by_contra h
        have := hqb h
        omega
      rw [min_eq_left haN.le] at h1
      rw [vecFillLoop_frame _ _ _ _ _ _ (by intro t ht; omega)]
      have e1 : po + (i : Int) = po + 16 * ((i / 16 : Nat) : Int) + ((i % 16 : Nat) : Int) := by
        omega
      rw [e1, hat1 (i / 16) (i % 16) (by omega) (by omega), if_neg (by omega)]
    · have e1 : po + (i : Int) = po + 16 * ((N - q : Nat) : Int)
          + 16 * (((i - 16 * (N - q)) / 16 : Nat) : Int) + ((i % 16 : Nat) : Int) := by
        omega
      rw [e1, vecFillLoop_at 16 (Or.inl rfl) _ _ _ _ _ (by omega) _ (by omega), he,
        hframe1 _ (by omega)]
  · intro x hx
    rw [vecFillLoop_frame _ _ _ _ _ _ (by intro t ht; omega), hframe1 x (by omega)]

/-- The vectorized right shift on two disjoint lines of `N` registers, with a fill
register holding the byte `e` everywhere: the merged part, the filled part and the
frame. -/
theorem vec_right_spec (m : Mem) (po pi : Int) (N a f : Nat)
    (hn : 16 * N < 4294967296) (ha : a < 2147483648)
    (hdisj : po + ((16 * N : Nat) : Int) ≤ pi ∨ pi + ((16 * N : Nat) : Int) ≤ po)
    (e : PIX8) (he : ∀ j, MB_vec8_set32 f j = e) :
    (∀ i : Nat, min a (16 * N) ≤ i → i < 16 * N →
      SHIFT_LINE_RIGHT_vec m po pi (16 * N) (a : Int) f (po + i)
        = pixmax (m (po + i)) (m (pi + ((i - min a (16 * N) : Nat) : Int)))) ∧
    (∀ i : Nat, i < min a (16 * N) →
      SHIFT_LINE_RIGHT_vec m po pi (16 * N) (a : Int) f (po + i) = pixmax (m (po + i)) e) ∧
    (∀ x : Int, x < po ∨ po + ((16 * N : Nat) : Int) ≤ x →
      SHIFT_LINE_RIGHT_vec m po pi (16 * N) (a : Int) f x = m x) := by
  obtain ⟨q, hq⟩ : ∃ q, q = if a < 16 * N then a / 16 else N := ⟨_, rfl⟩
  have hqN : q ≤ N := by
    rw [hq]; split <;> omega
  have hqa : a < 16 * N → q = a / 16 := fun h => by rw [hq, if_pos h]
  have hqb : ¬ a < 16 * N → q = N := fun h => by rw [hq, if_neg h]
  have hc : min a (16 * N) ≤ 16 * N := min_le_right _ _
  rw [SHIFT_LINE_RIGHT_vec_eq m po pi N a f hn ha q hq]
  generalize hm1 : (if a % 16 = 0 then
      vecMaxLoop (-16) (N - q) m (po + ((16 * N : Nat) : Int) - 16)
        (pi + ((16 * N : Nat) : Int) - ((q : Int) + 1) * 16)
      else intraLoopRight (a % 16) (MB_vec8_set32 f)
        (toUint32 (((16 * N : Nat) : Int) - ((q : Int) + 1) * 16)) (N - q) 0 m
        (po + ((16 * N : Nat) : Int) - 16)
        (pi + ((16 * N : Nat) : Int) - ((q : Int) + 1) * 16)) = m1
  have hframe1 : ∀ x : Int, x < po + 16 * (q : Int) ∨ po + ((16 * N : Nat) : Int) ≤ x →
      m1 x = m x := by
    intro x hx
    rw [← hm1]
    split
    · apply vecMaxLoop_frame
      intro t ht
      omega
    · apply intraLoopRight_frame
      intro t ht
      omega
  have hat1 : ∀ t j : Nat, t < N - q → j < 16 →
      m1 (po + ((16 * N : Nat) : Int) - 16 - 16 * t + j)
        = pixmax (m (po + ((16 * N : Nat) : Int) - 16 - 16 * t + j))
            (if a + 16 + 16 * t ≤ 16 * N + j then
              m (pi + ((16 * N : Nat) : Int) - 16 - 16 * t + j - a) else e) := by
    intro t j ht hj
    have haN : a < 16 * N := by
      by_contra h
      have := hqb h
      omega
    have hqe := hqa haN
    rw [← hm1]
    by_cases hr : a % 16 = 0
    · have e0 : po + ((16 * N : Nat) : Int) - 16 - 16 * (t : Int) + j
          = po + ((16 * N : Nat) : Int) - 16 + -16 * (t : Int) + j := by ring
      rw [if_pos hr, e0, vecMaxLoop_at (-16) (Or.inr rfl) _ _ _ _
        (by intro t1 t2 h1 h2 j1 j2 h3 h4; omega) t ht j hj, if_pos (by omega)]
      congr 2
      omega
    · have hlast : toUint32 (((16 * N : Nat) : Int) - ((q : Int) + 1) * 16)
          = 16 * N - 16 * (q + 1) := by
        unfold toUint32
        omega
      rw [if_neg hr, hlast, intraLoopRight_at (a % 16) (by omega) (by omega) _ _ _ 0
        (by decide) _ _ _ (by intro t1 t2 h1 h2 j1 j2 h3 h4; omega) t ht j hj]
      congr 1
      by_cases h1 : a % 16 ≤ j
      · rw [if_pos h1, if_pos (by omega)]
        congr 1
        omega
      · rw [if_neg h1]
        by_cases h2 : (0 + 16 * t) % 4294967296 = 16 * N - 16 * (q + 1)
        · rw [if_pos h2, if_neg (by omega), he]
        · rw [if_neg h2, if_pos (by omega)]
          congr 1
          omega
  refine ⟨?_, ?_, ?_⟩
  · intro i h1 h2
    have haN : a < 16 * N := by
      by_contra h
      rw [min_eq_right (by omega)] at h1
      omega
    rw [min_eq_left haN.le] at h1 ⊢
    have hqe := hqa haN
    rw [vecFillLoop_frame _ _ _ _ _ _ (by intro t ht; omega)]
    have e1 : po + (i : Int) = po + ((16 * N : Nat) : Int) - 16
        - 16 * ((N - 1 - i / 16 : Nat) : Int) + ((i % 16 : Nat) : Int) := by
      omega
    rw [e1, hat1 (N - 1 - i / 16) (i % 16) (by omega) (by omega), if_pos (by omega)]
    congr 2
    omega
  · intro i h1
    by_cases hi : 16 * q ≤ i
    · have haN : a < 16 * N := by
        by_contra h
        have := hqb h
        omega
      rw [min_eq_left haN.le] at h1
      rw [vecFillLoop_frame _ _ _ _ _ _ (by intro t ht; omega)]
      have e1 : po + (i : Int) = po + ((16 * N : Nat) : Int) - 16
          - 16 * ((N - 1 - i / 16 : Nat) : Int) + ((i % 16 : Nat) : Int) := by
        omega
      rw [e1, hat1 (N - 1 - i / 16) (i % 16) (by omega) (by omega), if_neg (by omega)]
    · have e1 : po + (i : Int) = po + ((16 * N : Nat) : Int) - 16 - 16 * ((N - q : Nat) : Int)
          + -16 * ((q - 1 - i / 16 : Nat) : Int) + ((i % 16 : Nat) : Int) := by
        omega
      rw [e1, vecFillLoop_at (-16) (Or.inr rfl) _ _ _ _ _ (by omega) _ (by omega), he,
        hframe1 _ (by omega)]
  · intro x hx
    rw [vecFillLoop_frame _ _ _ _ _ _ (by intro t ht; omega), hframe1 x (by omega)]

/-! ## The vectorized primitives against the scalar ones -/

theorem toUint32_toSint32 (n : Nat) (hn : n < 4294967296) : toUint32 (toSint32 n) = n := by
  unfold toUint32 toSint32
  rw [Nat.mod_eq_of_lt hn]
  split <;> omega

/-- When `(Uint32) count` is not below `bytes_in`, the left shift is the fill loop over
the whole line: the merge loop makes no iteration. -/
theorem SHIFT_LINE_LEFT_clamped (m : Mem) (po pi : Int) (n : Nat) (count : Int) (f : Nat)
    (hn : n < 4294967296) (hc : ¬ toUint32 count < n) :
    SHIFT_LINE_LEFT m po pi n count f = fillLoop 1 n m po f := by
  have hk : (n + 4294967296 - n) % 4294967296 = 0 := by omega
  simp only [SHIFT_LINE_LEFT, if_neg hc, toUint32_toSint32 n hn, hk, maxLoop, Nat.cast_zero,
    add_zero]

/-- When `(Uint32) count` is not below `bytes_in`, the right shift is the descending fill
loop over the whole line. -/
theorem SHIFT_LINE_RIGHT_clamped (m : Mem) (po pi : Int) (n : Nat) (count : Int) (f : Nat)
    (hn : n < 4294967296) (hc : ¬ toUint32 count < n) :
    SHIFT_LINE_RIGHT m po pi n count f = fillLoop (-1) n m (po + n - 1) f := by
  have hk : (n + 4294967296 - n) % 4294967296 = 0 := by omega
  simp only [SHIFT_LINE_RIGHT, if_neg hc, toUint32_toSint32 n hn, hk, maxLoop, Nat.cast_zero,
    sub_zero]

/-- The descending fill loop over a line leaves the same memory as the ascending one. -/
theorem fillLoop_down_eq_up (m : Mem) (po : Int) (n f : Nat) :
    fillLoop (-1) n m (po + n - 1) f = fillLoop 1 n m po f := by
  funext x
  by_cases hx : po ≤ x ∧ x < po + n
  · have e1 : x = (po + n - 1) + -1 * (((po + n - 1 - x).toNat : Nat) : Int) := by omega
    have e2 : x = po + 1 * (((x - po).toNat : Nat) : Int) := by omega
    have h1 := fillLoop_at (-1) (Or.inr rfl) n m (po + n - 1) f (po + n - 1 - x).toNat
      (by omega)
    have h2 := fillLoop_at 1 (Or.inl rfl) n m po f (x - po).toNat (by omega)
    rw [← e1] at h1
    rw [← e2] at h2
    rw [h1, h2]
  · rw [fillLoop_frame _ _ _ _ _ _ (by intro j hj; omega),
      fillLoop_frame _ _ _ _ _ _ (by intro j hj; omega)]

/-- A left shift whose amount is clamped is `SHIFT_EDGE_LINE` on the destination line. -/
theorem SHIFT_LINE_LEFT_clamped_edge (m : Mem) (po pi : Int) (n : Nat) (count : Int) (f : Nat)
    (hn : n < 4294967296) (hc : ¬ toUint32 count < n) :
    SHIFT_LINE_LEFT m po pi n count f = SHIFT_EDGE_LINE m po n f := by
  rw [SHIFT_LINE_LEFT_clamped m po pi n count f hn hc, SHIFT_EDGE_LINE]

/-- A right shift whose amount is clamped is `SHIFT_EDGE_LINE` on the destination line. -/
theorem SHIFT_LINE_RIGHT_clamped_edge (m : Mem) (po pi : Int) (n : Nat) (count : Int) (f : Nat)
    (hn : n < 4294967296) (hc : ¬ toUint32 count < n) :
    SHIFT_LINE_RIGHT m po pi n count f = SHIFT_EDGE_LINE m po n f := by
  rw [SHIFT_LINE_RIGHT_clamped m po pi n count f hn hc, fillLoop_down_eq_up, SHIFT_EDGE_LINE]

theorem pixmax_idem (d s : PIX8) : pixmax (pixmax d s) s = pixmax d s := by
  rw [pixmax_eq_max, pixmax_eq_max, max_assoc, max_self]

theorem fillmax_idem (d : PIX8) (f : Nat) : fillmax (fillmax d f) f = fillmax d f := by
  apply Fin.ext
  rw [fillmax_val, fillmax_val]
  have := d.isLt
  split_ifs <;> omega

/-- Applying `SHIFT_EDGE_LINE` twice leaves the memory that one application leaves. -/
theorem SHIFT_EDGE_LINE_idem (m : Mem) (po : Int) (n f : Nat) :
    SHIFT_EDGE_LINE (SHIFT_EDGE_LINE m po n f) po n f = SHIFT_EDGE_LINE m po n f := by
  funext x
  by_cases hx : po ≤ x ∧ x < po + n
  · have e : x = po + (((x - po).toNat : Nat) : Int) := by omega
    rw [e, SHIFT_EDGE_LINE_at _ _ _ _ _ (by omega), SHIFT_EDGE_LINE_at _ _ _ _ _ (by omega),
      fillmax_idem]
  · rw [SHIFT_EDGE_LINE_frame _ _ _ _ _ (by omega)]

/-- Applying `SHIFT_LINE` twice on two disjoint lines leaves the memory that one
application leaves. -/
theorem SHIFT_LINE_idem (m : Mem) (po pi : Int) (n : Nat)
    (hdisj : po + n ≤ pi ∨ pi + n ≤ po) :
    SHIFT_LINE (SHIFT_LINE m po pi n) po pi n = SHIFT_LINE m po pi n := by
  have hat : ∀ (m1 : Mem) (i : Nat), i < n →
      SHIFT_LINE m1 po pi n (po + i) = pixmax (m1 (po + i)) (m1 (pi + i)) := by
    intro m1 i hi
    have := maxLoop_at 1 (Or.inl rfl) n m1 po pi (by intro j j' h1 h2; omega) i hi
    simp only [one_mul] at this
    rw [SHIFT_LINE, this]
  have hframe : ∀ (m1 : Mem) (x : Int), x < po ∨ po + n ≤ x → SHIFT_LINE m1 po pi n x = m1 x := by
    intro m1 x hx
    rw [SHIFT_LINE, maxLoop_frame]
    intro j hj
    omega
  funext x
  by_cases hx : po ≤ x ∧ x < po + n
  · have e : x = po + (((x - po).toNat : Nat) : Int) := by omega
    rw [e, hat _ _ (by omega), hat m _ (by omega), hframe m (pi + _) (by omega), pixmax_idem]
  · rw [hframe _ x (by omega)]

/-- Applying the scalar left shift twice on two disjoint lines, with a non-negative
amount, leaves the memory that one application leaves. -/
theorem scalar_left_idem (m : Mem) (po pi : Int) (n a f : Nat)
    (hn : n < 4294967296) (ha : a < 4294967296) (han : n ≤ a → n < 2147483648)
    (hdisj : po + n ≤ pi ∨ pi + n ≤ po) :
    SHIFT_LINE_LEFT (SHIFT_LINE_LEFT m po pi n (a : Int) f) po pi n (a : Int) f
      = SHIFT_LINE_LEFT m po pi n (a : Int) f := by
  have hc : min a n ≤ n := min_le_right a n
  funext x
  by_cases hx : po ≤ x ∧ x < po + n
  · have e : x = po + (((x - po).toNat : Nat) : Int) := by omega
    rw [e]
    by_cases hi : (x - po).toNat < n - min a n
    · rw [scalar_left_merge _ po pi n a f hn ha han (by intro j j' h1 h2; omega) _ hi,
        scalar_left_merge m po pi n a f hn ha han (by intro j j' h1 h2; omega) _ hi,
        scalar_left_frame m po pi n a f hn ha han (pi + _ + _) (by omega), pixmax_idem]
    · rw [scalar_left_fill _ po pi n a f hn ha han _ (by omega) (by omega),
        scalar_left_fill m po pi n a f hn ha han _ (by omega) (by omega), fillmax_idem]
  · rw [scalar_left_frame _ po pi n a f hn ha han x (by omega)]

/-- Applying the scalar right shift twice on two disjoint lines, with a non-negative
amount, leaves the memory that one application leaves. -/
theorem scalar_right_idem (m : Mem) (po pi : Int) (n a f : Nat)
    (hn : n < 4294967296) (ha : a < 4294967296) (han : n ≤ a → n < 2147483648)
    (hdisj : po + n ≤ pi ∨ pi + n ≤ po) :
    SHIFT_LINE_RIGHT (SHIFT_LINE_RIGHT m po pi n (a : Int) f) po pi n (a : Int) f
      = SHIFT_LINE_RIGHT m po pi n (a : Int) f := by
  have hc : min a n ≤ n := min_le_right a n
  funext x
  by_cases hx : po ≤ x ∧ x < po + n
  · have e : x = po + (((x - po).toNat : Nat) : Int) := by omega
    rw [e]
    by_cases hi : min a n ≤ (x - po).toNat
    · rw [scalar_right_merge _ po pi n a f hn ha han (by intro j j' h1 h2; omega) _ hi
          (by omega),
        scalar_right_merge m po pi n a f hn ha han (by intro j j' h1 h2; omega) _ hi
          (by omega),
        scalar_right_frame m po pi n a f hn ha han (pi + _) (by omega), pixmax_idem]
    · rw [scalar_right_fill _ po pi n a f hn ha han _ (by omega),
        scalar_right_fill m po pi n a f hn ha han _ (by omega), fillmax_idem]
  · rw [scalar_right_frame _ po pi n a f hn ha han x (by omega)]

/-! ## The claims on the scalar line primitives -/

/-- C1: scalar `SHIFT_LINE_LEFT` on two distinct lines of `n` bytes, with an amount
`a >= 0` and an 8-bit fill value `f`: with `c = min a n`, byte `i < n - c` of the
destination becomes `max(dst[i], src[i+c])`, byte `i` in `[n-c, n)` becomes
`max(dst[i], f)`, the source line is unchanged and nothing outside the `n` bytes of the
destination is written. -/
theorem C1_shift_left_line (m : Mem) (p_out p_in : Int) (n a f : Nat)
    (hn : n < 4294967296) (ha : a < 2147483648) (hf : f ≤ 255)
    (hdisj : p_out + n ≤ p_in ∨ p_in + n ≤ p_out) :
    (∀ i : Nat, i < n - min a n →
      SHIFT_LINE_LEFT m p_out p_in n (a : Int) f (p_out + i)
        = max (m (p_out + i)) (m (p_in + ((i + min a n : Nat) : Int)))) ∧
    (∀ i : Nat, n - min a n ≤ i → i < n →
      (SHIFT_LINE_LEFT m p_out p_in n (a : Int) f (p_out + i)).val
        = max (m (p_out + i)).val f) ∧
    (∀ i : Nat, i < n →
      SHIFT_LINE_LEFT m p_out p_in n (a : Int) f (p_in + i) = m (p_in + i)) ∧
    (∀ x : Int, x < p_out ∨ p_out + n ≤ x →
      SHIFT_LINE_LEFT m p_out p_in n (a : Int) f x = m x) := by
  refine ⟨?_, ?_, ?_, ?_⟩
  · intro i hi
    rw [scalar_left_merge m p_out p_in n a f hn (by omega) (by omega) (by intro j j' h1 h2; omega) i hi,
      pixmax_eq_max]
    congr 2
    omega
  · intro i h1 h2
    rw [scalar_left_fill m p_out p_in n a f hn (by omega) (by omega) i h1 h2, fillmax_val_byte _ _ hf]
  · intro i hi
    exact scalar_left_frame m p_out p_in n a f hn (by omega) (by omega) _ (by omega)
  · intro x hx
    exact scalar_left_frame m p_out p_in n a f hn (by omega) (by omega) x hx

/-- Witness of C1: the line `[1,5,3,7]` at 0, the source `[4,2,9,0]` at 100, amount 1,
fill value 6. -/
theorem C1_shift_left_line_witness :
    (4 < 4294967296 ∧ 1 < 2147483648 ∧ 6 ≤ 255 ∧ ((0 : Int) + (4 : Nat) ≤ 100 ∨ (100 : Int) + (4 : Nat) ≤ 0)) ∧
    SHIFT_LINE_LEFT mem0 0 100 4 (1 : Nat) 6 (0 + (0 : Nat)) = max (mem0 (0 + (0 : Nat))) (mem0 (100 + ((0 + min 1 4 : Nat) : Int))) ∧
    (SHIFT_LINE_LEFT mem0 0 100 4 (1 : Nat) 6 (0 + (3 : Nat))).val = max (mem0 (0 + (3 : Nat))).val 6 :=
  have h := C1_shift_left_line mem0 0 100 4 1 6 (by decide) (by decide) (by decide) (by decide)
  ⟨by decide, h.1 0 (by decide), h.2.1 3 (by decide) (by decide)⟩

/-- C2: scalar `SHIFT_LINE_RIGHT` mirrors `SHIFT_LINE_LEFT`: on two distinct lines of `n`
bytes the destination line it produces is the byte reversal of the line produced by
`SHIFT_LINE_LEFT` on the reversed lines; with `c = min a n`, byte `i` in `[c, n)`
becomes `max(dst[i], src[i-c])` and byte `i < c` becomes `max(dst[i], f)` (`f` an 8-bit
value). -/
theorem C2_shift_right_mirrors_left (m : Mem) (p_out p_in : Int) (n a f : Nat)
    (hn : n < 4294967296) (ha : a < 2147483648)
    (hdisj : p_out + n ≤ p_in ∨ p_in + n ≤ p_out) :
    (∀ i : Nat, i < n →
      SHIFT_LINE_RIGHT m p_out p_in n (a : Int) f (p_out + i)
        = reverseLine
            (SHIFT_LINE_LEFT (reverseLine (reverseLine m p_out n) p_in n) p_out p_in n (a : Int) f)
            p_out n (p_out + i)) ∧
    (∀ i : Nat, min a n ≤ i → i < n →
      SHIFT_LINE_RIGHT m p_out p_in n (a : Int) f (p_out + i)
        = max (m (p_out + i)) (m (p_in + ((i - min a n : Nat) : Int)))) ∧
    (f ≤ 255 → ∀ i : Nat, i < min a n →
      (SHIFT_LINE_RIGHT m p_out p_in n (a : Int) f (p_out + i)).val
        = max (m (p_out + i)).val f) := by
  have hc : min a n ≤ n := min_le_right a n
  have hmerge : ∀ i : Nat, min a n ≤ i → i < n →
      SHIFT_LINE_RIGHT m p_out p_in n (a : Int) f (p_out + i)
        = pixmax (m (p_out + i)) (m (p_in + ((i - min a n : Nat) : Int))) := fun i h1 h2 =>
    scalar_right_merge m p_out p_in n a f hn (by omega) (by omega) (by intro j j' h1 h2; omega) i h1 h2
  refine ⟨?_, ?_, ?_⟩
  · intro i hi
    have hrev : reverseLine
          (SHIFT_LINE_LEFT (reverseLine (reverseLine m p_out n) p_in n) p_out p_in n (a : Int) f)
          p_out n (p_out + i)
        = SHIFT_LINE_LEFT (reverseLine (reverseLine m p_out n) p_in n) p_out p_in n (a : Int) f
            (p_out + ((n - 1 - i : Nat) : Int)) := by
      unfold reverseLine
      rw [if_pos (by omega)]
      congr 1
      omega
    have hdst : reverseLine (reverseLine m p_out n) p_in n (p_out + ((n - 1 - i : Nat) : Int))
        = m (p_out + i) := by
      unfold reverseLine
      rw [if_neg (by omega), if_pos (by omega)]
      congr 1
      omega
    rw [hrev]
    by_cases hic : min a n ≤ i
    · rw [hmerge i hic hi,
        scalar_left_merge _ p_out p_in n a f hn (by omega) (by omega) (by intro j j' h1 h2; omega) (n - 1 - i)
          (by omega), hdst]
      congr 1
      unfold reverseLine
      rw [if_pos (by omega), if_neg (by omega)]
      congr 1
      omega
    · rw [scalar_right_fill m p_out p_in n a f hn (by omega) (by omega) i (by omega),
        scalar_left_fill _ p_out p_in n a f hn (by omega) (by omega) (n - 1 - i) (by omega) (by omega), hdst]
  · intro i h1 h2
    rw [hmerge i h1 h2, pixmax_eq_max]
  · intro hf i hi
    rw [scalar_right_fill m p_out p_in n a f hn (by omega) (by omega) i hi, fillmax_val_byte _ _ hf]

/-- Witness of C2: the line `[1,5,3,7]` at 0, the source `[4,2,9,0]` at 100, amount 1,
fill value 6. -/
theorem C2_shift_right_mirrors_left_witness :
    (4 < 4294967296 ∧ 1 < 2147483648 ∧ ((0 : Int) + (4 : Nat) ≤ 100 ∨ (100 : Int) + (4 : Nat) ≤ 0)) ∧
    SHIFT_LINE_RIGHT mem0 0 100 4 (1 : Nat) 6 (0 + (3 : Nat))
      = max (mem0 (0 + (3 : Nat))) (mem0 (100 + ((3 - min 1 4 : Nat) : Int))) ∧
    SHIFT_LINE_RIGHT mem0 0 100 4 (1 : Nat) 6 (0 + (3 : Nat)) = 9 :=
  have h := C2_shift_right_mirrors_left mem0 0 100 4 1 6 (by decide) (by decide) (by decide)
  ⟨by decide, h.2.1 3 (by decide) (by decide), by decide⟩

/-- C3: scalar `SHIFT_LINE` on a destination and a source line of `n` bytes (two distinct
lines, or the same line): byte `i < n` of the destination becomes `max(dst[i], src[i])`,
the source line is unchanged and the bytes outside the first `n` bytes of the destination
are unchanged. -/
theorem C3_max_merge_line (m : Mem) (p_out p_in : Int) (n : Nat)
    (hlines : p_out + n ≤ p_in ∨ p_in + n ≤ p_out ∨ p_in = p_out) :
    (∀ i : Nat, i < n →
      SHIFT_LINE m p_out p_in n (p_out + i) = max (m (p_out + i)) (m (p_in + i))) ∧
    (∀ i : Nat, i < n → SHIFT_LINE m p_out p_in n (p_in + i) = m (p_in + i)) ∧
    (∀ x : Int, x < p_out ∨ p_out + n ≤ x → SHIFT_LINE m p_out p_in n x = m x) := by
  have hmerge : ∀ i : Nat, i < n →
      SHIFT_LINE m p_out p_in n (p_out + i) = max (m (p_out + i)) (m (p_in + i)) := by
    intro i hi
    have := maxLoop_at 1 (Or.inl rfl) n m p_out p_in (by intro j j' h1 h2; omega) i hi
    simp only [one_mul] at this
    rw [SHIFT_LINE, this, pixmax_eq_max]
  have hframe : ∀ x : Int, x < p_out ∨ p_out + n ≤ x → SHIFT_LINE m p_out p_in n x = m x := by
    intro x hx
    rw [SHIFT_LINE, maxLoop_frame]
    intro j hj
    omega
  refine ⟨hmerge, ?_, hframe⟩
  intro i hi
  rcases hlines with h | h | h
  · exact hframe _ (by omega)
  · exact hframe _ (by omega)
  · subst h
    rw [hmerge i hi, max_self]

/-- Witness of C3: the line `[1,5,3,7]` at 0 and the source `[4,2,9,0]` at 100. -/
theorem C3_max_merge_line_witness :
    ((0 : Int) + (4 : Nat) ≤ 100 ∨ (100 : Int) + (4 : Nat) ≤ 0 ∨ (100 : Int) = 0) ∧
    SHIFT_LINE mem0 0 100 4 (0 + (2 : Nat)) = max (mem0 (0 + (2 : Nat))) (mem0 (100 + (2 : Nat))) ∧
    SHIFT_LINE mem0 0 100 4 (0 + (2 : Nat)) = 9 :=
  have h := C3_max_merge_line mem0 0 100 4 (by decide)
  ⟨by decide, h.1 2 (by decide), by decide⟩

/-- C4, as stated, fails: with the 32-bit fill value 256 the byte 5 of the line
`[1,5,3,7]` is lowered to 0, which is not `max(5, 256)`. -/
theorem C4_counterexample :
    (mem0 (0 + (1 : Nat))).val = 5 ∧
    (SHIFT_EDGE_LINE mem0 0 4 256 (0 + (1 : Nat))).val = 0 ∧
    (SHIFT_EDGE_LINE mem0 0 4 256 (0 + (1 : Nat))).val ≠ max (mem0 (0 + (1 : Nat))).val 256 ∧
    SHIFT_EDGE_LINE mem0 0 4 256 (0 + (1 : Nat)) < mem0 (0 + (1 : Nat)) := by
  decide

/-- C4 (amended): scalar `SHIFT_EDGE_LINE` on a line of `n` bytes: byte `i < n` is kept
when it is greater than the 32-bit `fill_value` and otherwise becomes the low byte of
`fill_value`.  For an 8-bit `fill_value` this is `max(dst[i], fill_value)` and no byte is
lowered; for a `fill_value` of 256 or more every byte becomes `fill_value mod 256`.
The bytes outside the line are unchanged. -/
theorem C4_fill_max_line (m : Mem) (p_out : Int) (n f : Nat) :
    (∀ i : Nat, i < n →
      (SHIFT_EDGE_LINE m p_out n f (p_out + i)).val
        = if f < (m (p_out + i)).val then (m (p_out + i)).val else f % 256) ∧
    (f ≤ 255 → ∀ i : Nat, i < n →
      (SHIFT_EDGE_LINE m p_out n f (p_out + i)).val = max (m (p_out + i)).val f ∧
      m (p_out + i) ≤ SHIFT_EDGE_LINE m p_out n f (p_out + i)) ∧
    (256 ≤ f → ∀ i : Nat, i < n →
      (SHIFT_EDGE_LINE m p_out n f (p_out + i)).val = f % 256) ∧
    (∀ x : Int, x < p_out ∨ p_out + n ≤ x → SHIFT_EDGE_LINE m p_out n f x = m x) := by
  have hat : ∀ i : Nat, i < n →
      SHIFT_EDGE_LINE m p_out n f (p_out + i) = fillmax (m (p_out + i)) f := by
    intro i hi
    have := fillLoop_at 1 (Or.inl rfl) n m p_out f i hi
    simp only [one_mul] at this
    rw [SHIFT_EDGE_LINE, this]
  refine ⟨?_, ?_, ?_, ?_⟩
  · intro i hi
    rw [hat i hi, fillmax_val]
  · intro hf i hi
    have hv := fillmax_val_byte (m (p_out + i)) f hf
    rw [hat i hi]
    refine ⟨hv, ?_⟩
    rw [Fin.le_def, hv]
    exact le_max_left _ _
  · intro hf i hi
    rw [hat i hi, fillmax_val, if_neg]
    have := (m (p_out + i)).isLt
    omega
  · intro x hx
    rw [SHIFT_EDGE_LINE, fillLoop_frame]
    intro j hj
    omega

/-- C6, as stated, fails: shifting the line `[1,5,3,7]` by its full length 4 with the
fill value 2 leaves the byte 5 (the maximum of 5 and 2), not the fill value. -/
theorem C6_counterexample :
    (4 : Nat) ≤ 4 ∧
    (SHIFT_LINE_LEFT mem0 0 100 4 (4 : Nat) 2 (0 + (1 : Nat))).val = 5 ∧
    (SHIFT_LINE_RIGHT mem0 0 100 4 (4 : Nat) 2 (0 + (1 : Nat))).val = 5 ∧
    (SHIFT_LINE_LEFT mem0 0 100 4 (4 : Nat) 2 (0 + (1 : Nat))).val ≠ 2 ∧
    (SHIFT_LINE_RIGHT mem0 0 100 4 (4 : Nat) 2 (0 + (1 : Nat))).val ≠ 2 := by
  decide

/-- C6 (amended): for a line of `n` bytes, an 8-bit fill value `f` and an amount
`a >= n`, scalar `SHIFT_LINE_LEFT` and `SHIFT_LINE_RIGHT` leave `max(dst[i], f)` in every
byte `i < n` of the destination; the byte equals `f` exactly where `dst[i] <= f`. -/
theorem C6_shift_amplitude_clamp (m : Mem) (p_out p_in : Int) (n a f : Nat)
    (ha : a < 2147483648) (hf : f ≤ 255) (han : n ≤ a) (i : Nat) (hi : i < n) :
    (SHIFT_LINE_LEFT m p_out p_in n (a : Int) f (p_out + i)).val = max (m (p_out + i)).val f ∧
    (SHIFT_LINE_RIGHT m p_out p_in n (a : Int) f (p_out + i)).val = max (m (p_out + i)).val f ∧
    ((SHIFT_LINE_LEFT m p_out p_in n (a : Int) f (p_out + i)).val = f ↔ (m (p_out + i)).val ≤ f) ∧
    ((SHIFT_LINE_RIGHT m p_out p_in n (a : Int) f (p_out + i)).val = f ↔ (m (p_out + i)).val ≤ f) := by
  have hc : min a n = n := min_eq_right han
  have hl : (SHIFT_LINE_LEFT m p_out p_in n (a : Int) f (p_out + i)).val
      = max (m (p_out + i)).val f := by
    rw [scalar_left_fill m p_out p_in n a f (by omega) (by omega) (by omega) i (by omega) hi,
      fillmax_val_byte _ _ hf]
  have hr : (SHIFT_LINE_RIGHT m p_out p_in n (a : Int) f (p_out + i)).val
      = max (m (p_out + i)).val f := by
    rw [scalar_right_fill m p_out p_in n a f (by omega) (by omega) (by omega) i (by omega),
      fillmax_val_byte _ _ hf]
  refine ⟨hl, hr, ?_, ?_⟩
  · rw [hl]; omega
  · rw [hr]; omega

/-- Witness of C6: the line `[1,5,3,7]` shifted by 4 with the fill value 6, byte 1. -/
theorem C6_shift_amplitude_clamp_witness :
    (4 < 2147483648 ∧ 6 ≤ 255 ∧ 4 ≤ 4 ∧ 1 < 4) ∧
    (SHIFT_LINE_LEFT mem0 0 100 4 (4 : Nat) 6 (0 + (1 : Nat))).val = max (mem0 (0 + (1 : Nat))).val 6 ∧
    (SHIFT_LINE_LEFT mem0 0 100 4 (4 : Nat) 6 (0 + (1 : Nat))).val = 6 :=
  have h := C6_shift_amplitude_clamp mem0 0 100 4 4 6 (by decide) (by decide) (by decide) 1
    (by decide)
  ⟨by decide, h.1, by decide⟩

/-! ## The claim on the vectorized shifts -/

/-- C5, as stated, fails.  On the line `[1,5,3,7]` of 4 bytes shifted left by 2 with the
fill value `0xFFFFFFFF`, the vectorized branch leaves 3 in byte 2 (the maximum of 3 and of
a byte read after the source line) where the scalar branch stores 255; on a line of 16
zero bytes shifted by 16 with the fill value 1, the vectorized branches leave 0 in byte 1
where the scalar branches store 1. -/
theorem C5_counterexample :
    ((SHIFT_LINE_LEFT_vec mem0 0 100 4 (2 : Nat) 4294967295 (0 + (2 : Nat))).val = 3 ∧
      (SHIFT_LINE_LEFT mem0 0 100 4 (2 : Nat) 4294967295 (0 + (2 : Nat))).val = 255) ∧
    ((SHIFT_LINE_LEFT_vec mem0 16 100 16 (16 : Nat) 1 (16 + (1 : Nat))).val = 0 ∧
      (SHIFT_LINE_LEFT mem0 16 100 16 (16 : Nat) 1 (16 + (1 : Nat))).val = 1) ∧
    ((SHIFT_LINE_RIGHT_vec mem0 16 100 16 (16 : Nat) 1 (16 + (1 : Nat))).val = 0 ∧
      (SHIFT_LINE_RIGHT mem0 16 100 16 (16 : Nat) 1 (16 + (1 : Nat))).val = 1) := by
  decide

/-- C5 (amended): on two distinct lines whose byte count `n` is a multiple of the 16-byte
register width, for every amount `a >= 0` (in particular every amount in `[0, 64)`) and
for the fill values 0 and `0xFFFFFFFF`, the vectorized branches of `SHIFT_LINE_LEFT` and
`SHIFT_LINE_RIGHT` leave the memory, hence the destination line, byte-identical to the
one left by the scalar branches. -/
theorem C5_vector_scalar_equivalence (m : Mem) (p_out p_in : Int) (n a f : Nat)
    (hn : n < 4294967296) (hn16 : n % 16 = 0) (ha : a < 2147483648)
    (hf : f = 0 ∨ f = 4294967295)
    (hdisj : p_out + n ≤ p_in ∨ p_in + n ≤ p_out) :
    SHIFT_LINE_LEFT_vec m p_out p_in n (a : Int) f = SHIFT_LINE_LEFT m p_out p_in n (a : Int) f ∧
    SHIFT_LINE_RIGHT_vec m p_out p_in n (a : Int) f
      = SHIFT_LINE_RIGHT m p_out p_in n (a : Int) f := by
  obtain ⟨N, rfl⟩ : ∃ N, n = 16 * N := ⟨n / 16, by omega⟩
  have hc : min a (16 * N) ≤ 16 * N := min_le_right _ _
  obtain ⟨hl1, hl2, hl3⟩ := vec_left_spec m p_out p_in N a f hn ha hdisj (toPIX8 f)
    (MB_vec8_set32_uniform f hf)
  obtain ⟨hr1, hr2, hr3⟩ := vec_right_spec m p_out p_in N a f hn ha hdisj (toPIX8 f)
    (MB_vec8_set32_uniform f hf)
  constructor
  · funext x
    by_cases hx : p_out ≤ x ∧ x < p_out + ((16 * N : Nat) : Int)
    · have e : x = p_out + (((x - p_out).toNat : Nat) : Int) := by omega
      rw [e]
      by_cases hi : (x - p_out).toNat < 16 * N - min a (16 * N)
      · rw [hl1 _ hi, scalar_left_merge m p_out p_in (16 * N) a f hn (by omega) (by omega)
          (by intro j j' h1 h2; omega) _ hi]
      · rw [hl2 _ (by omega) (by omega),
          scalar_left_fill m p_out p_in (16 * N) a f hn (by omega) (by omega) _ (by omega)
            (by omega), fillmax_edge _ _ hf]
    · rw [hl3 x (by omega),
        scalar_left_frame m p_out p_in (16 * N) a f hn (by omega) (by omega) x (by omega)]
  · funext x
    by_cases hx : p_out ≤ x ∧ x < p_out + ((16 * N : Nat) : Int)
    · have e : x = p_out + (((x - p_out).toNat : Nat) : Int) := by omega
      rw [e]
      by_cases hi : min a (16 * N) ≤ (x - p_out).toNat
      · rw [hr1 _ hi (by omega), scalar_right_merge m p_out p_in (16 * N) a f hn (by omega)
          (by omega) (by intro j j' h1 h2; omega) _ hi (by omega)]
      · rw [hr2 _ (by omega),
          scalar_right_fill m p_out p_in (16 * N) a f hn (by omega) (by omega) _ (by omega),
          fillmax_edge _ _ hf]
    · rw [hr3 x (by omega),
        scalar_right_frame m p_out p_in (16 * N) a f hn (by omega) (by omega) x (by omega)]

/-- Witness of C5: two lines of 32 bytes at the addresses 0 and 100, the amount 21 and the
fill value `0xFFFFFFFF`. -/
theorem C5_vector_scalar_equivalence_witness :
    (32 < 4294967296 ∧ 32 % 16 = 0 ∧ 21 < 2147483648 ∧ ((4294967295 : Nat) = 0 ∨ (4294967295 : Nat) = 4294967295) ∧
      ((0 : Int) + (32 : Nat) ≤ 100 ∨ (100 : Int) + (32 : Nat) ≤ 0)) ∧
    SHIFT_LINE_LEFT_vec mem32 0 100 32 (21 : Nat) 4294967295
      = SHIFT_LINE_LEFT mem32 0 100 32 (21 : Nat) 4294967295 ∧
    SHIFT_LINE_RIGHT_vec mem32 0 100 32 (21 : Nat) 4294967295
      = SHIFT_LINE_RIGHT mem32 0 100 32 (21 : Nat) 4294967295 :=
  ⟨by decide,
    C5_vector_scalar_equivalence mem32 0 100 32 21 4294967295 (by decide) (by decide)
      (by decide) (by decide) (by decide)⟩

/-! ## The claims on the entry point `MB_SupVector8` -/

/-- C7: `MB_SupVector8` on two 8-bit images of identical width and height (below `2^31`,
the lines of the two images being apart) returns `NO_ERR` for every signed 32-bit
`(dx, dy)`; every pixel `(x, y)` of `srcdest` whose displaced position `(x+dx, y+dy)` is
inside the image becomes the maximum of its prior value and of the `src` pixel at
`(x+dx, y+dy)`, every other pixel becomes the maximum of its prior value and of the fill
value of the edge mode, and `src` is unchanged. -/
theorem C7_sup_vector (m : Mem) (src srcdest : MB_Image) (dx dy : Int) (edge : MB_edgemode_t)
    (hw : src.width = srcdest.width) (hh : src.height = srcdest.height)
    (hd1 : src.depth = 8) (hd2 : srcdest.depth = 8)
    (hwb : src.width < 2147483648) (hhb : src.height < 2147483648)
    (hdx : -2147483648 ≤ dx ∧ dx < 2147483648)
    (hap : LinesApart srcdest.plines src.plines src.height src.width) :
    ∃ m', MB_SupVector8 m src srcdest dx dy edge = some (.NO_ERR, m') ∧
      (∀ x y : Nat, x < src.width → y < src.height →
        0 ≤ (x : Int) + dx → (x : Int) + dx < src.width →
        0 ≤ (y : Int) + dy → (y : Int) + dy < src.height →
        m' (srcdest.plines y + x)
          = max (m (srcdest.plines y + x))
              (m (src.plines ((y : Int) + dy).toNat + ((x : Int) + dx)))) ∧
      (∀ x y : Nat, x < src.width → y < src.height →
        ¬ (0 ≤ (x : Int) + dx ∧ (x : Int) + dx < src.width ∧
           0 ≤ (y : Int) + dy ∧ (y : Int) + dy < src.height) →
        m' (srcdest.plines y + x)
          = max (m (srcdest.plines y + x)) (toPIX8 (GREY_FILL_VALUE edge))) ∧
      (∀ x y : Nat, x < src.width → y < src.height →
        m' (src.plines y + x) = m (src.plines y + x)) := by
  obtain ⟨m', hcall, hframe, hat⟩ :=
    MB_SupVector8_spec m src srcdest dx dy edge hw hh hd1 hd2 hwb hhb hdx hap
  refine ⟨m', hcall, ?_, ?_, ?_⟩
  · intro x y hx hy h1 h2 h3 h4
    rw [hat y hy x hx, supPixel, if_pos ⟨h3, h4, h1, h2⟩]
  · intro x y hx hy hout
    rw [hat y hy x hx, supPixel, if_neg (fun hh => hout ⟨hh.2.2.1, hh.2.2.2, hh.1, hh.2.1⟩)]
  · intro x y hx hy
    apply hframe
    intro y' hy'
    have := hap.2 y' hy' y hy
    omega

/-- Witness of C7: the 4 by 2 images `imgSrc` and `imgDst` in the memory `mem0`, the
vector `(1, 0)` and the empty edge. -/
theorem C7_sup_vector_witness :
    (imgSrc.width = imgDst.width ∧ imgSrc.height = imgDst.height ∧ imgSrc.depth = 8 ∧
      imgDst.depth = 8 ∧ imgSrc.width < 2147483648 ∧ imgSrc.height < 2147483648 ∧
      (-2147483648 ≤ (1 : Int) ∧ (1 : Int) < 2147483648) ∧
      LinesApart imgDst.plines imgSrc.plines imgSrc.height imgSrc.width) ∧
    ∃ m', MB_SupVector8 mem0 imgSrc imgDst 1 0 .MB_EMPTY_EDGE = some (.NO_ERR, m') ∧
      m' (imgDst.plines 0 + (1 : Nat)) = 9 ∧ m' (imgDst.plines 0 + (3 : Nat)) = 7 :=
  have hap : LinesApart imgDst.plines imgSrc.plines imgSrc.height imgSrc.width := by
    unfold LinesApart
    decide
  have h := C7_sup_vector mem0 imgSrc imgDst 1 0 .MB_EMPTY_EDGE rfl rfl rfl rfl (by decide)
    (by decide) (by decide) hap
  ⟨⟨rfl, rfl, rfl, rfl, by decide, by decide, by decide, hap⟩,
    h.elim fun m' hm' =>
      ⟨m', hm'.1,
        (hm'.2.1 1 0 (by decide) (by decide) (by decide) (by decide) (by decide)
          (by decide)).trans (by decide),
        (hm'.2.2.1 3 0 (by decide) (by decide) (by decide)).trans (by decide)⟩⟩

/-- C8: with `dx = dy = 0`, `MB_SupVector8` on two 8-bit images of the same size (lines
apart) gives the same memory for every edge mode, in which every pixel of `srcdest` is
the maximum of its prior value and of the `src` pixel at the same position: unchanged
where `srcdest[p] >= src[p]`, raised to `src[p]` otherwise. -/
theorem C8_zero_vector (m : Mem) (src srcdest : MB_Image)
    (hw : src.width = srcdest.width) (hh : src.height = srcdest.height)
    (hd1 : src.depth = 8) (hd2 : srcdest.depth = 8)
    (hwb : src.width < 2147483648) (hhb : src.height < 2147483648)
    (hap : LinesApart srcdest.plines src.plines src.height src.width) :
    ∃ m', (∀ edge, MB_SupVector8 m src srcdest 0 0 edge = some (.NO_ERR, m')) ∧
      (∀ x y : Nat, x < src.width → y < src.height →
        m' (srcdest.plines y + x) = max (m (srcdest.plines y + x)) (m (src.plines y + x)) ∧
        (m (src.plines y + x) ≤ m (srcdest.plines y + x) →
          m' (srcdest.plines y + x) = m (srcdest.plines y + x)) ∧
        (m (srcdest.plines y + x) < m (src.plines y + x) →
          m' (srcdest.plines y + x) = m (src.plines y + x))) := by
  have hpix : ∀ (e : PIX8) (x y : Nat), x < src.width → y < src.height →
      supPixel m srcdest.plines src.plines src.width src.height 0 0 e x y
        = max (m (srcdest.plines y + x)) (m (src.plines y + x)) := by
    intro e x y hx hy
    rw [supPixel, if_pos (by omega)]
    simp
  obtain ⟨m', hcall, hframe, hat⟩ :=
    MB_SupVector8_spec m src srcdest 0 0 .MB_EMPTY_EDGE hw hh hd1 hd2 hwb hhb (by omega) hap
  refine ⟨m', ?_, ?_⟩
  · intro edge
    obtain ⟨m2, hcall2, hframe2, hat2⟩ :=
      MB_SupVector8_spec m src srcdest 0 0 edge hw hh hd1 hd2 hwb hhb (by omega) hap
    rw [hcall2]
    have : m2 = m' := by
      funext z
      by_cases hz : ∃ y, y < src.height ∧ srcdest.plines y ≤ z ∧ z < srcdest.plines y + src.width
      · obtain ⟨y, hy, h1, h2⟩ := hz
        have e : z = srcdest.plines y + ((z - srcdest.plines y).toNat : Int) := by omega
        rw [e, hat2 y hy _ (by omega), hat y hy _ (by omega), hpix _ _ _ (by omega) hy,
          hpix _ _ _ (by omega) hy]
      · have hz' : ∀ y, y < src.height →
            z < srcdest.plines y ∨ srcdest.plines y + src.width ≤ z := by
          intro y hy
          by_contra hc
          exact hz ⟨y, hy, by omega, by omega⟩
        rw [hframe2 z hz', hframe z hz']
    rw [this]
  · intro x y hx hy
    have hm : m' (srcdest.plines y + x)
        = max (m (srcdest.plines y + x)) (m (src.plines y + x)) := by
      rw [hat y hy x hx, hpix _ x y hx hy]
    refine ⟨hm, ?_, ?_⟩
    · intro hle
      rw [hm, max_eq_left hle]
    · intro hlt
      rw [hm, max_eq_right hlt.le]

/-- Witness of C8: the 4 by 2 images `imgSrc` and `imgDst` in the memory `mem0`. -/
theorem C8_zero_vector_witness :
    (imgSrc.width = imgDst.width ∧ imgSrc.height = imgDst.height ∧ imgSrc.depth = 8 ∧
      imgDst.depth = 8 ∧ imgSrc.width < 2147483648 ∧ imgSrc.height < 2147483648 ∧
      LinesApart imgDst.plines imgSrc.plines imgSrc.height imgSrc.width) ∧
    ∃ m', (∀ edge, MB_SupVector8 mem0 imgSrc imgDst 0 0 edge = some (.NO_ERR, m')) ∧
      m' (imgDst.plines 0 + (2 : Nat)) = 9 ∧ m' (imgDst.plines 0 + (1 : Nat)) = 5 :=
  have hap : LinesApart imgDst.plines imgSrc.plines imgSrc.height imgSrc.width := by
    unfold LinesApart
    decide
  have h := C8_zero_vector mem0 imgSrc imgDst rfl rfl rfl rfl (by decide) (by decide) hap
  ⟨⟨rfl, rfl, rfl, rfl, by decide, by decide, hap⟩,
    h.elim fun m' hm' =>
      ⟨m', hm'.1,
        (hm'.2 2 0 (by decide) (by decide)).1.trans (by decide),
        (hm'.2 1 0 (by decide) (by decide)).1.trans (by decide)⟩⟩

/-- C9: when the widths or the heights of the two images differ, `MB_SupVector8` returns
`ERR_BAD_SIZE` whatever the depths, the vector and the edge mode, and the memory (hence
every byte of `srcdest` and of `src`) is left as it was. -/
theorem C9_bad_size (m : Mem) (src srcdest : MB_Image) (dx dy : Int) (edge : MB_edgemode_t)
    (hsize : src.width ≠ srcdest.width ∨ src.height ≠ srcdest.height) :
    MB_SupVector8 m src srcdest dx dy edge = some (.ERR_BAD_SIZE, m) := by
  have hchk : MB_CHECK_SIZE_2 src srcdest = false := by
    unfold MB_CHECK_SIZE_2
    rcases hsize with h | h
    · simp [h]
    · simp [h]
  unfold MB_SupVector8
  simp [hchk]

/-- Witness of C9: an 8 by 2 source against a 4 by 2 destination. -/
theorem C9_bad_size_witness :
    (imgWide.width ≠ imgDst.width ∨ imgWide.height ≠ imgDst.height) ∧
    MB_SupVector8 mem0 imgWide imgDst 1 (-1) .MB_FILLED_EDGE = some (.ERR_BAD_SIZE, mem0) :=
  ⟨by decide, C9_bad_size mem0 imgWide imgDst 1 (-1) .MB_FILLED_EDGE (by decide)⟩

/-- C10: on two images of identical width and height, `MB_SupVector8` returns
`ERR_BAD_DEPTH` exactly when the two depths are not both 8 (for instance a 1-bit image
with a 32-bit image), leaving the memory as it was; when both depths are 8 it returns
`NO_ERR`. -/
theorem C10_bad_depth (m : Mem) (src srcdest : MB_Image) (dx dy : Int) (edge : MB_edgemode_t)
    (hw : src.width = srcdest.width) (hh : src.height = srcdest.height) :
    ((∃ m', MB_SupVector8 m src srcdest dx dy edge = some (.ERR_BAD_DEPTH, m'))
      ↔ ¬ (src.depth = 8 ∧ srcdest.depth = 8)) ∧
    (¬ (src.depth = 8 ∧ srcdest.depth = 8) →
      MB_SupVector8 m src srcdest dx dy edge = some (.ERR_BAD_DEPTH, m)) ∧
    (src.depth = 1 → srcdest.depth = 32 →
      MB_SupVector8 m src srcdest dx dy edge = some (.ERR_BAD_DEPTH, m)) ∧
    (src.depth = 8 ∧ srcdest.depth = 8 →
      ∃ m', MB_SupVector8 m src srcdest dx dy edge = some (.NO_ERR, m')) := by
  have hchk : MB_CHECK_SIZE_2 src srcdest = true := by
    simp [MB_CHECK_SIZE_2, hw, hh]
  have hbad : ¬ (src.depth = 8 ∧ srcdest.depth = 8) →
      MB_SupVector8 m src srcdest dx dy edge = some (.ERR_BAD_DEPTH, m) := by
    intro hd
    have hpair : MB_PROBE_PAIR src srcdest ≠ MB_PAIR_8_8 := by
      intro hp
      apply hd
      simp only [MB_PROBE_PAIR, MB_PAIR_8_8, Prod.mk.injEq] at hp
      exact hp
    unfold MB_SupVector8
    simp [hchk, hpair]
  have hgood : src.depth = 8 ∧ srcdest.depth = 8 →
      ∃ m', MB_SupVector8 m src srcdest dx dy edge = some (.NO_ERR, m') := by
    intro hd
    have hpair : MB_PROBE_PAIR src srcdest = MB_PAIR_8_8 := by
      simp [MB_PROBE_PAIR, MB_PAIR_8_8, hd.1, hd.2]
    obtain ⟨fn, hlook, _⟩ := orientation_lookup dx dy
    refine ⟨fn m srcdest.plines src.plines (MB_LINE_COUNT src) (toSint32 src.height) dx dy
      (GREY_FILL_VALUE edge), ?_⟩
    unfold MB_SupVector8
    simp only [hchk, hpair, hlook]
    simp
  refine ⟨⟨?_, fun hd => ⟨m, hbad hd⟩⟩, hbad, ?_, hgood⟩
  · rintro ⟨m', hm'⟩ hd
    obtain ⟨m2, hm2⟩ := hgood hd
    rw [hm2] at hm'
    simp at hm'
  · intro h1 h2
    apply hbad
    omega

/-- Witness of C10: a 1-bit image with a 32-bit image of the same size. -/
theorem C10_bad_depth_witness :
    (imgBin.width = img32.width ∧ imgBin.height = img32.height) ∧
    MB_SupVector8 mem0 imgBin img32 1 1 .MB_EMPTY_EDGE = some (.ERR_BAD_DEPTH, mem0) :=
  ⟨by decide,
    (C10_bad_depth mem0 imgBin img32 1 1 .MB_EMPTY_EDGE rfl rfl).2.2.1 rfl rfl⟩


/-! ## The claims on the entry point `MB_Shift` -/

/-- C11, as stated, fails: for a source of depth 16 and a destination of other
dimensions, `MB_Shift` returns `ERR_BAD_DEPTH`, not `ERR_BAD_SIZE`, although the
depth-specific implementations check the dimensions. -/
theorem C11_counterexample :
    ChecksSize (shiftChecksOnly 1) ∧ ChecksSize (shiftChecksOnly 8) ∧
    ChecksSize (shiftChecksOnly 32) ∧
    (img16.width ≠ imgDst.width ∨ img16.height ≠ imgDst.height) ∧
    (MB_Shift (shiftChecksOnly 1) (shiftChecksOnly 8) (shiftChecksOnly 32) mem0 img16 imgDst
      1 1 0 .MB_SQUARE_GRID).1 = .ERR_BAD_DEPTH ∧
    (MB_Shift (shiftChecksOnly 1) (shiftChecksOnly 8) (shiftChecksOnly 32) mem0 img16 imgDst
      1 1 0 .MB_SQUARE_GRID).1 ≠ .ERR_BAD_SIZE := by
  have hc : ∀ d, ChecksSize (shiftChecksOnly d) := by
    intro d m src dest dirnum count filler grid hsize
    have hchk : MB_CHECK_SIZE_2 src dest = false := by
      unfold MB_CHECK_SIZE_2
      rcases hsize with h | h
      · simp [h]
      · simp [h]
    simp [shiftChecksOnly, hchk]
  exact ⟨hc 1, hc 8, hc 32, by decide, by decide, by decide⟩

/-- C11 (amended): when the widths or the heights of `src` and `dest` differ, and the
depth-specific implementations check the dimensions as the spec requires, `MB_Shift`
returns `ERR_BAD_SIZE` for a source of depth 1, 8 or 32 and `ERR_BAD_DEPTH` for a source
of any other depth, whatever the direction index, the amplitude, the fill value and the
grid; in both cases the memory, hence `dest`, is left as it was. -/
theorem C11_shift_bad_size (MB_Shiftb MB_Shift8 MB_Shift32 : SHIFTFUNC) (m : Mem)
    (src dest : MB_Image) (dirnum count long_filler_pix : Nat) (grid : MB_grid_t)
    (hb : ChecksSize MB_Shiftb) (h8 : ChecksSize MB_Shift8) (h32 : ChecksSize MB_Shift32)
    (hsize : src.width ≠ dest.width ∨ src.height ≠ dest.height) :
    ((src.depth = 1 ∨ src.depth = 8 ∨ src.depth = 32) →
      MB_Shift MB_Shiftb MB_Shift8 MB_Shift32 m src dest dirnum count long_filler_pix grid
        = (.ERR_BAD_SIZE, m)) ∧
    (¬ (src.depth = 1 ∨ src.depth = 8 ∨ src.depth = 32) →
      MB_Shift MB_Shiftb MB_Shift8 MB_Shift32 m src dest dirnum count long_filler_pix grid
        = (.ERR_BAD_DEPTH, m)) := by
  constructor
  · intro hd
    unfold MB_Shift
    rcases hd with h | h | h
    · rw [if_pos h]
      exact hb m src dest dirnum count long_filler_pix grid hsize
    · rw [if_neg (by omega), if_pos h]
      exact h8 m src dest dirnum count long_filler_pix grid hsize
    · rw [if_neg (by omega), if_neg (by omega), if_pos h]
      exact h32 m src dest dirnum count long_filler_pix grid hsize
  · intro hd
    unfold MB_Shift
    rw [if_neg (fun h => hd (Or.inl h)), if_neg (fun h => hd (Or.inr (Or.inl h))),
      if_neg (fun h => hd (Or.inr (Or.inr h)))]

/-- Witness of C11: an 8-bit source of 8 by 2 pixels against a destination of 4 by 2
pixels, with implementations that make the precondition checks of the spec. -/
theorem C11_shift_bad_size_witness :
    (imgWide.width ≠ imgDst.width ∨ imgWide.height ≠ imgDst.height) ∧
    MB_Shift (shiftChecksOnly 1) (shiftChecksOnly 8) (shiftChecksOnly 32) mem0 imgWide imgDst
      3 2 0 .MB_HEXAGONAL_GRID = (.ERR_BAD_SIZE, mem0) :=
  have hc : ∀ d, ChecksSize (shiftChecksOnly d) := by
    intro d m src dest dirnum count filler grid hsize
    have hchk : MB_CHECK_SIZE_2 src dest = false := by
      unfold MB_CHECK_SIZE_2
      rcases hsize with h | h
      · simp [h]
      · simp [h]
    simp [shiftChecksOnly, hchk]
  ⟨by decide,
    (C11_shift_bad_size (shiftChecksOnly 1) (shiftChecksOnly 8) (shiftChecksOnly 32) mem0
      imgWide imgDst 3 2 0 .MB_HEXAGONAL_GRID (hc 1) (hc 8) (hc 32) (by decide)).1
      (Or.inr (Or.inl rfl))⟩

/-- C12: `MB_Shift` dispatches on the depth of `src` only.  For a depth other than 1, 8
and 32 it returns `ERR_BAD_DEPTH` and leaves the memory as it was, whatever the three
implementations are (none is called); for the depth 1, 8 or 32 its result is the result
of `MB_Shiftb`, `MB_Shift8` or `MB_Shift32` called with the same six arguments.  The depth
of `dest` plays no part in the choice. -/
theorem C12_shift_depth_dispatch (MB_Shiftb MB_Shift8 MB_Shift32 : SHIFTFUNC) (m : Mem)
    (src dest : MB_Image) (dirnum count long_filler_pix : Nat) (grid : MB_grid_t) :
    (src.depth ≠ 1 ∧ src.depth ≠ 8 ∧ src.depth ≠ 32 →
      ∀ fb f8 f32 : SHIFTFUNC,
        MB_Shift fb f8 f32 m src dest dirnum count long_filler_pix grid
          = (.ERR_BAD_DEPTH, m)) ∧
    (src.depth = 1 →
      MB_Shift MB_Shiftb MB_Shift8 MB_Shift32 m src dest dirnum count long_filler_pix grid
        = MB_Shiftb m src dest dirnum count long_filler_pix grid) ∧
    (src.depth = 8 →
      MB_Shift MB_Shiftb MB_Shift8 MB_Shift32 m src dest dirnum count long_filler_pix grid
        = MB_Shift8 m src dest dirnum count long_filler_pix grid) ∧
    (src.depth = 32 →
      MB_Shift MB_Shiftb MB_Shift8 MB_Shift32 m src dest dirnum count long_filler_pix grid
        = MB_Shift32 m src dest dirnum count long_filler_pix grid) := by
  refine ⟨?_, ?_, ?_, ?_⟩
  · rintro ⟨h1, h2, h3⟩ fb f8 f32
    unfold MB_Shift
    rw [if_neg h1, if_neg h2, if_neg h3]
  · intro h
    unfold MB_Shift
    rw [if_pos h]
  · intro h
    unfold MB_Shift
    rw [if_neg (by omega), if_pos h]
  · intro h
    unfold MB_Shift
    rw [if_neg (by omega), if_neg (by omega), if_pos h]

/-- C13: the orientation code of a vector is below the number of entries of
`orientationFunc`, so the lookup always finds a driver and `MB_SupVector8` never leaves
the table; the code is a function of the signs of `dx` and `dy` alone, and two vectors
with different sign patterns have different codes (each vector falls in exactly one of
the nine categories). -/
theorem C13_orientation_coverage (dx dy : Int) :
    CODE_ORIENTATION dx dy < 9 ∧ orientationFunc.length = 9 ∧
    (∃ fn, orientationFunc[CODE_ORIENTATION dx dy]? = some fn) ∧
    (∀ dx2 dy2 : Int,
      CODE_ORIENTATION dx2 dy2 = CODE_ORIENTATION dx dy ↔
        ((dx2 < 0 ↔ dx < 0) ∧ (0 < dx2 ↔ 0 < dx) ∧ (dy2 < 0 ↔ dy < 0) ∧ (0 < dy2 ↔ 0 < dy))) ∧
    (∀ (m : Mem) (src srcdest : MB_Image) (edge : MB_edgemode_t),
      MB_SupVector8 m src srcdest dx dy edge ≠ none) := by
  have hs : ∀ z : Int, (signCode z = 1 ∧ z < 0) ∨ (signCode z = 2 ∧ 0 < z) ∨
      (signCode z = 0 ∧ z = 0) := by
    intro z
    unfold signCode
    rcases lt_trichotomy z 0 with h | h | h
    · left; exact ⟨if_pos h, h⟩
    · right; right; subst h; exact ⟨rfl, rfl⟩
    · right; left; rw [if_neg (by omega), if_pos h]; exact ⟨rfl, h⟩
  obtain ⟨fn, hlook, _⟩ := orientation_lookup dx dy
  refine ⟨?_, rfl, ⟨fn, hlook⟩, ?_, ?_⟩
  · unfold CODE_ORIENTATION
    rcases hs dx with ⟨e1, _⟩ | ⟨e1, _⟩ | ⟨e1, _⟩ <;>
      rcases hs dy with ⟨e2, _⟩ | ⟨e2, _⟩ | ⟨e2, _⟩ <;> omega
  · intro dx2 dy2
    unfold CODE_ORIENTATION
    rcases hs dx with ⟨e1, h1⟩ | ⟨e1, h1⟩ | ⟨e1, h1⟩ <;>
      rcases hs dy with ⟨e2, h2⟩ | ⟨e2, h2⟩ | ⟨e2, h2⟩ <;>
      rcases hs dx2 with ⟨e3, h3⟩ | ⟨e3, h3⟩ | ⟨e3, h3⟩ <;>
      rcases hs dy2 with ⟨e4, h4⟩ | ⟨e4, h4⟩ | ⟨e4, h4⟩ <;>
      omega
  · intro m src srcdest edge
    unfold MB_SupVector8
    rw [hlook]
    split
    · simp
    · split <;> simp

/-! ## The claims on clamping, in-place use and idempotence of the scalar primitives -/

/-- C15: for an amount `a >= n` the scalar `SHIFT_LINE_LEFT` and `SHIFT_LINE_RIGHT` leave
exactly the memory they leave for `a = n`, which is the memory left by
`SHIFT_EDGE_LINE(dst, n, f)`: the result depends neither on the source pointer nor on the
bytes of the source, and every byte of the destination is saturated with `f` (it becomes
`max(dst[i], f)` for an 8-bit `f`). -/
theorem C15_amount_clamp (m : Mem) (p_out p_in : Int) (n a f : Nat)
    (ha : a < 2147483648) (han : n ≤ a) :
    (SHIFT_LINE_LEFT m p_out p_in n (a : Int) f = SHIFT_LINE_LEFT m p_out p_in n (n : Int) f ∧
      SHIFT_LINE_LEFT m p_out p_in n (a : Int) f = SHIFT_EDGE_LINE m p_out n f) ∧
    (SHIFT_LINE_RIGHT m p_out p_in n (a : Int) f = SHIFT_LINE_RIGHT m p_out p_in n (n : Int) f ∧
      SHIFT_LINE_RIGHT m p_out p_in n (a : Int) f = SHIFT_EDGE_LINE m p_out n f) ∧
    (∀ (p_in2 : Int) (m2 : Mem), (∀ i : Nat, i < n → m2 (p_out + i) = m (p_out + i)) →
      ∀ i : Nat, i < n →
        SHIFT_LINE_LEFT m2 p_out p_in2 n (a : Int) f (p_out + i)
          = SHIFT_LINE_LEFT m p_out p_in n (a : Int) f (p_out + i) ∧
        SHIFT_LINE_RIGHT m2 p_out p_in2 n (a : Int) f (p_out + i)
          = SHIFT_LINE_RIGHT m p_out p_in n (a : Int) f (p_out + i)) ∧
    (f ≤ 255 → ∀ i : Nat, i < n →
      (SHIFT_LINE_LEFT m p_out p_in n (a : Int) f (p_out + i)).val
        = max (m (p_out + i)).val f ∧
      (SHIFT_LINE_RIGHT m p_out p_in n (a : Int) f (p_out + i)).val
        = max (m (p_out + i)).val f) := by
  have hn : n < 4294967296 := by omega
  have hca : ¬ toUint32 (a : Int) < n := by
    rw [toUint32_natCast a (by omega)]; omega
  have hcn : ¬ toUint32 (n : Int) < n := by
    rw [toUint32_natCast n hn]; omega
  have hl : ∀ (m1 : Mem) (q : Int),
      SHIFT_LINE_LEFT m1 p_out q n (a : Int) f = SHIFT_EDGE_LINE m1 p_out n f := fun m1 q =>
    SHIFT_LINE_LEFT_clamped_edge m1 p_out q n _ f hn hca
  have hr : ∀ (m1 : Mem) (q : Int),
      SHIFT_LINE_RIGHT m1 p_out q n (a : Int) f = SHIFT_EDGE_LINE m1 p_out n f := fun m1 q =>
    SHIFT_LINE_RIGHT_clamped_edge m1 p_out q n _ f hn hca
  refine ⟨⟨?_, hl m p_in⟩, ⟨?_, hr m p_in⟩, ?_, ?_⟩
  · rw [hl, SHIFT_LINE_LEFT_clamped_edge m p_out p_in n _ f hn hcn]
  · rw [hr, SHIFT_LINE_RIGHT_clamped_edge m p_out p_in n _ f hn hcn]
  · intro p_in2 m2 hm2 i hi
    rw [hl m2, hl m, hr m2, hr m, SHIFT_EDGE_LINE_at _ _ _ _ _ hi,
      SHIFT_EDGE_LINE_at _ _ _ _ _ hi, hm2 i hi]
    exact ⟨rfl, rfl⟩
  · intro hf i hi
    rw [hl m, hr m, SHIFT_EDGE_LINE_at _ _ _ _ _ hi, fillmax_val_byte _ _ hf]
    exact ⟨rfl, rfl⟩

/-- Witness of C15: the line `[1,5,3,7]` at 0, the source `[4,2,9,0]` at 100, the amount 9
and the fill value 6. -/
theorem C15_amount_clamp_witness :
    (9 < 2147483648 ∧ 4 ≤ 9) ∧
    SHIFT_LINE_LEFT mem0 0 100 4 (9 : Nat) 6 = SHIFT_EDGE_LINE mem0 0 4 6 ∧
    SHIFT_LINE_RIGHT mem0 0 100 4 (9 : Nat) 6 = SHIFT_EDGE_LINE mem0 0 4 6 ∧
    (SHIFT_EDGE_LINE mem0 0 4 6 (0 + (0 : Nat))).val = 6 :=
  have h := C15_amount_clamp mem0 0 100 4 9 6 (by decide) (by decide)
  ⟨by decide, h.1.2, h.2.1.2, by decide⟩

/-- C16: in-place use of the scalar shifts.  When the destination and the source are the
same line of `n` bytes at `p`, with `c = min a n` and an 8-bit fill value `f`,
`SHIFT_LINE_LEFT` leaves `max(old[i], old[i+c])` in byte `i < n - c` and `max(old[i], f)`
in byte `i` of `[n-c, n)`, and `SHIFT_LINE_RIGHT` leaves `max(old[i], old[i-c])` in byte
`i` of `[c, n)` and `max(old[i], f)` in byte `i < c`.  Both give the line obtained when
the source is a separate copy of the line taken before the call. -/
theorem C16_in_place (m : Mem) (p : Int) (n a f : Nat)
    (hn : n < 4294967296) (ha : a < 2147483648) (hf : f ≤ 255) :
    ((∀ i : Nat, i < n - min a n →
        SHIFT_LINE_LEFT m p p n (a : Int) f (p + i)
          = max (m (p + i)) (m (p + ((i + min a n : Nat) : Int)))) ∧
      (∀ i : Nat, n - min a n ≤ i → i < n →
        (SHIFT_LINE_LEFT m p p n (a : Int) f (p + i)).val = max (m (p + i)).val f)) ∧
    ((∀ i : Nat, min a n ≤ i → i < n →
        SHIFT_LINE_RIGHT m p p n (a : Int) f (p + i)
          = max (m (p + i)) (m (p + ((i - min a n : Nat) : Int)))) ∧
      (∀ i : Nat, i < min a n →
        (SHIFT_LINE_RIGHT m p p n (a : Int) f (p + i)).val = max (m (p + i)).val f)) ∧
    (∀ (ps : Int) (m2 : Mem), (p + n ≤ ps ∨ ps + n ≤ p) →
      (∀ i : Nat, i < n → m2 (p + i) = m (p + i)) →
      (∀ i : Nat, i < n → m2 (ps + i) = m (p + i)) →
      ∀ i : Nat, i < n →
        SHIFT_LINE_LEFT m p p n (a : Int) f (p + i)
          = SHIFT_LINE_LEFT m2 p ps n (a : Int) f (p + i) ∧
        SHIFT_LINE_RIGHT m p p n (a : Int) f (p + i)
          = SHIFT_LINE_RIGHT m2 p ps n (a : Int) f (p + i)) := by
  have hc : min a n ≤ n := min_le_right a n
  have hlm : ∀ i : Nat, i < n - min a n →
      SHIFT_LINE_LEFT m p p n (a : Int) f (p + i)
        = pixmax (m (p + i)) (m (p + (min a n : Nat) + i)) := fun i hi =>
    scalar_left_merge m p p n a f hn (by omega) (by omega) (by intro j j' h1 h2; omega) i hi
  have hrm : ∀ i : Nat, min a n ≤ i → i < n →
      SHIFT_LINE_RIGHT m p p n (a : Int) f (p + i)
        = pixmax (m (p + i)) (m (p + ((i - min a n : Nat) : Int))) := fun i h1 h2 =>
    scalar_right_merge m p p n a f hn (by omega) (by omega) (by intro j j' h1 h2; omega) i
      h1 h2
  refine ⟨⟨?_, ?_⟩, ⟨?_, ?_⟩, ?_⟩
  · intro i hi
    rw [hlm i hi, pixmax_eq_max]
    congr 2
    omega
  · intro i h1 h2
    rw [scalar_left_fill m p p n a f hn (by omega) (by omega) i h1 h2,
      fillmax_val_byte _ _ hf]
  · intro i h1 h2
    rw [hrm i h1 h2, pixmax_eq_max]
  · intro i hi
    rw [scalar_right_fill m p p n a f hn (by omega) (by omega) i hi,
      fillmax_val_byte _ _ hf]
  · intro ps m2 hd hdst hsrc i hi
    constructor
    · by_cases h1 : i < n - min a n
      · rw [hlm i h1, scalar_left_merge m2 p ps n a f hn (by omega) (by omega)
          (by intro j j' h1 h2; omega) i h1, hdst i hi]
        have e1 : ps + ((min a n : Nat) : Int) + (i : Int) = ps + ((min a n + i : Nat) : Int) := by
          omega
        have e2 : p + ((min a n : Nat) : Int) + (i : Int) = p + ((min a n + i : Nat) : Int) := by
          omega
        rw [e1, e2, hsrc _ (by omega)]
      · rw [scalar_left_fill m p p n a f hn (by omega) (by omega) i (by omega) hi,
          scalar_left_fill m2 p ps n a f hn (by omega) (by omega) i (by omega) hi, hdst i hi]
    · by_cases h1 : min a n ≤ i
      · rw [hrm i h1 hi, scalar_right_merge m2 p ps n a f hn (by omega) (by omega)
          (by intro j j' h1 h2; omega) i h1 hi, hdst i hi, hsrc _ (by omega)]
      · rw [scalar_right_fill m p p n a f hn (by omega) (by omega) i (by omega),
          scalar_right_fill m2 p ps n a f hn (by omega) (by omega) i (by omega), hdst i hi]

/-- Witness of C16: the line `[1,5,3,7]` at 0 shifted in place by 1 with the fill value
6. -/
theorem C16_in_place_witness :
    (4 < 4294967296 ∧ 1 < 2147483648 ∧ 6 ≤ 255) ∧
    SHIFT_LINE_LEFT mem0 0 0 4 (1 : Nat) 6 (0 + (0 : Nat))
      = max (mem0 (0 + (0 : Nat))) (mem0 (0 + ((0 + min 1 4 : Nat) : Int))) ∧
    SHIFT_LINE_LEFT mem0 0 0 4 (1 : Nat) 6 (0 + (0 : Nat)) = 5 ∧
    SHIFT_LINE_RIGHT mem0 0 0 4 (1 : Nat) 6 (0 + (3 : Nat)) = 7 :=
  have h := C16_in_place mem0 0 4 1 6 (by decide) (by decide) (by decide)
  ⟨by decide, h.1.1 0 (by decide), by decide,
    (h.2.1.1 3 (by decide) (by decide)).trans (by decide)⟩

/-- C17: idempotence of the scalar primitives.  On two disjoint lines of `n` bytes, for
every signed 32-bit amount (a negative amount on a line of at most `2^31` bytes) and
every fill value, applying `SHIFT_LINE`, `SHIFT_EDGE_LINE`, `SHIFT_LINE_LEFT` or
`SHIFT_LINE_RIGHT` twice with the same arguments leaves the memory that one application
leaves. -/
theorem C17_idempotence (m : Mem) (p_out p_in : Int) (n : Nat) (count : Int) (f : Nat)
    (hn : n < 4294967296) (hc1 : -2147483648 ≤ count) (hc2 : count < 2147483648)
    (hneg : count < 0 → n ≤ 2147483648)
    (hdisj : p_out + n ≤ p_in ∨ p_in + n ≤ p_out) :
    SHIFT_LINE (SHIFT_LINE m p_out p_in n) p_out p_in n = SHIFT_LINE m p_out p_in n ∧
    SHIFT_EDGE_LINE (SHIFT_EDGE_LINE m p_out n f) p_out n f = SHIFT_EDGE_LINE m p_out n f ∧
    SHIFT_LINE_LEFT (SHIFT_LINE_LEFT m p_out p_in n count f) p_out p_in n count f
      = SHIFT_LINE_LEFT m p_out p_in n count f ∧
    SHIFT_LINE_RIGHT (SHIFT_LINE_RIGHT m p_out p_in n count f) p_out p_in n count f
      = SHIFT_LINE_RIGHT m p_out p_in n count f := by
  refine ⟨SHIFT_LINE_idem m p_out p_in n hdisj, SHIFT_EDGE_LINE_idem m p_out n f, ?_, ?_⟩
  · by_cases h0 : 0 ≤ count
    · obtain ⟨a, rfl⟩ := Int.eq_ofNat_of_zero_le h0
      exact scalar_left_idem m p_out p_in n a f hn (by omega) (by omega) hdisj
    · have hc : ¬ toUint32 count < n := by
        unfold toUint32
        omega
      rw [SHIFT_LINE_LEFT_clamped_edge _ p_out p_in n count f hn hc,
        SHIFT_LINE_LEFT_clamped_edge m p_out p_in n count f hn hc, SHIFT_EDGE_LINE_idem]
  · by_cases h0 : 0 ≤ count
    · obtain ⟨a, rfl⟩ := Int.eq_ofNat_of_zero_le h0
      exact scalar_right_idem m p_out p_in n a f hn (by omega) (by omega) hdisj
    · have hc : ¬ toUint32 count < n := by
        unfold toUint32
        omega
      rw [SHIFT_LINE_RIGHT_clamped_edge _ p_out p_in n count f hn hc,
        SHIFT_LINE_RIGHT_clamped_edge m p_out p_in n count f hn hc, SHIFT_EDGE_LINE_idem]

/-- Witness of C17: the line `[1,5,3,7]` at 0, the source `[4,2,9,0]` at 100, the amount 1
and the fill value 300. -/
theorem C17_idempotence_witness :
    (4 < 4294967296 ∧ (-2147483648 : Int) ≤ 1 ∧ (1 : Int) < 2147483648 ∧
      ((1 : Int) < 0 → 4 ≤ 2147483648) ∧
      ((0 : Int) + (4 : Nat) ≤ 100 ∨ (100 : Int) + (4 : Nat) ≤ 0)) ∧
    SHIFT_LINE_LEFT (SHIFT_LINE_LEFT mem0 0 100 4 1 300) 0 100 4 1 300
      = SHIFT_LINE_LEFT mem0 0 100 4 1 300 ∧
    (SHIFT_LINE_LEFT mem0 0 100 4 1 300 (0 + (3 : Nat))).val = 44 :=
  have h := C17_idempotence mem0 0 100 4 1 300 (by decide) (by decide) (by decide)
    (by decide) (by decide)
  ⟨by decide, h.2.2.1, by decide⟩

/-- C18: a negative amount is a full clamp.  For a signed 32-bit `count < 0` and a line of
`n <= 2^31` bytes, the scalar `SHIFT_LINE_LEFT` and `SHIFT_LINE_RIGHT` leave the memory
they leave for the amount `n`, which is the memory left by `SHIFT_EDGE_LINE`: every byte
of the destination becomes `max(dst[i], fill)` (for an 8-bit fill), the result depends
neither on the source pointer nor on the bytes of the source, and nothing outside the `n`
bytes of the destination is written. -/
theorem C18_negative_amount (m : Mem) (p_out p_in : Int) (n : Nat) (count : Int) (f : Nat)
    (hc1 : -2147483648 ≤ count) (hc0 : count < 0) (hn : n ≤ 2147483648) :
    (SHIFT_LINE_LEFT m p_out p_in n count f = SHIFT_LINE_LEFT m p_out p_in n (n : Int) f ∧
      SHIFT_LINE_LEFT m p_out p_in n count f = SHIFT_EDGE_LINE m p_out n f) ∧
    (SHIFT_LINE_RIGHT m p_out p_in n count f = SHIFT_LINE_RIGHT m p_out p_in n (n : Int) f ∧
      SHIFT_LINE_RIGHT m p_out p_in n count f = SHIFT_EDGE_LINE m p_out n f) ∧
    (f ≤ 255 → ∀ i : Nat, i < n →
      (SHIFT_LINE_LEFT m p_out p_in n count f (p_out + i)).val = max (m (p_out + i)).val f ∧
      (SHIFT_LINE_RIGHT m p_out p_in n count f (p_out + i)).val
        = max (m (p_out + i)).val f) ∧
    (∀ (p_in2 : Int) (m2 : Mem), (∀ i : Nat, i < n → m2 (p_out + i) = m (p_out + i)) →
      ∀ i : Nat, i < n →
        SHIFT_LINE_LEFT m2 p_out p_in2 n count f (p_out + i)
          = SHIFT_LINE_LEFT m p_out p_in n count f (p_out + i) ∧
        SHIFT_LINE_RIGHT m2 p_out p_in2 n count f (p_out + i)
          = SHIFT_LINE_RIGHT m p_out p_in n count f (p_out + i)) ∧
    (∀ x : Int, x < p_out ∨ p_out + n ≤ x →
      SHIFT_LINE_LEFT m p_out p_in n count f x = m x ∧
      SHIFT_LINE_RIGHT m p_out p_in n count f x = m x) := by
  have hn' : n < 4294967296 := by omega
  have hcc : ¬ toUint32 count < n := by
    unfold toUint32
    omega
  have hcn : ¬ toUint32 (n : Int) < n := by
    rw [toUint32_natCast n hn']; omega
  have hl : ∀ (m1 : Mem) (q : Int),
      SHIFT_LINE_LEFT m1 p_out q n count f = SHIFT_EDGE_LINE m1 p_out n f := fun m1 q =>
    SHIFT_LINE_LEFT_clamped_edge m1 p_out q n _ f hn' hcc
  have hr : ∀ (m1 : Mem) (q : Int),
      SHIFT_LINE_RIGHT m1 p_out q n count f = SHIFT_EDGE_LINE m1 p_out n f := fun m1 q =>
    SHIFT_LINE_RIGHT_clamped_edge m1 p_out q n _ f hn' hcc
  refine ⟨⟨?_, hl m p_in⟩, ⟨?_, hr m p_in⟩, ?_, ?_, ?_⟩
  · rw [hl, SHIFT_LINE_LEFT_clamped_edge m p_out p_in n _ f hn' hcn]
  · rw [hr, SHIFT_LINE_RIGHT_clamped_edge m p_out p_in n _ f hn' hcn]
  · intro hf i hi
    rw [hl m, hr m, SHIFT_EDGE_LINE_at _ _ _ _ _ hi, fillmax_val_byte _ _ hf]
    exact ⟨rfl, rfl⟩
  · intro p_in2 m2 hm2 i hi
    rw [hl m2, hl m, hr m2, hr m, SHIFT_EDGE_LINE_at _ _ _ _ _ hi,
      SHIFT_EDGE_LINE_at _ _ _ _ _ hi, hm2 i hi]
    exact ⟨rfl, rfl⟩
  · intro x hx
    rw [hl m, hr m, SHIFT_EDGE_LINE_frame _ _ _ _ _ hx]
    exact ⟨rfl, rfl⟩

/-- Witness of C18: the line `[1,5,3,7]` at 0, the source `[4,2,9,0]` at 100, the amount
`-3` and the fill value 6. -/
theorem C18_negative_amount_witness :
    ((-2147483648 : Int) ≤ -3 ∧ (-3 : Int) < 0 ∧ 4 ≤ 2147483648) ∧
    SHIFT_LINE_LEFT mem0 0 100 4 (-3) 6 = SHIFT_EDGE_LINE mem0 0 4 6 ∧
    SHIFT_LINE_RIGHT mem0 0 100 4 (-3) 6 = SHIFT_EDGE_LINE mem0 0 4 6 ∧
    (SHIFT_LINE_LEFT mem0 0 100 4 (-3) 6 (0 + (1 : Nat))).val = 6 :=
  have h := C18_negative_amount mem0 0 100 4 (-3) 6 (by decide) (by decide) (by decide)
  ⟨by decide, h.1.2, h.2.1.2, by decide⟩

/-! ## The claim on the four vectorized primitives -/

end Mamba
